import Mathlib

/-!
Verification of the checkpointed archive harvester
(`telegram_handler.py` / `state_manager.py`).

This file shallowly embeds the harvester's data model and operations:

* `MsgFlag`, `flag_to_dict`, `dict_to_flag`, `StateStore.save`
  (from `state_manager.py`);
* `normalize_channel_username` (source name `_normalize_channel_username`),
  `extract_url` (source name `_extract_url`), `CollectedRecord`,
  `scanBatch` / `runLoop` / `collect_links_with_flags`
  (from `telegram_handler.py`).

The Telegram transport is an external collaborator; per the contract of
`TelegramClient.iter_messages` it hands back batches of messages in
strictly newest-to-oldest order, each strictly older than the supplied
`offset_id`.  The embedding therefore takes the fetch results as an
abstract oracle `fetch : Nat -> Option MsgFlag -> Option (List Message)`
(attempt index and current cursor to either a transport failure `none`
or a batch), and the theorems that need the transport contract assume it
explicitly (`GoodFetcher`).  A concrete instance (`fetchBatch`) models a
fixed archive for the scenario claims.

Python `int` is unbounded and message ids are nonnegative, so ids are
embedded as `Nat`; message dates travel as opaque ISO strings.
-/

/-- Cursor for Telegram archive parsing (`state_manager.MsgFlag`):
both the message id and its date string are stored. -/
structure MsgFlag where
  id : Nat
  date : String
deriving DecidableEq, Repr

/-- The JSON dict form of a flag, `{"id": ..., "date": ...}`, as produced by
`flag_to_dict` and consumed by `dict_to_flag`. -/
structure FlagDict where
  id : Nat
  date : String
deriving DecidableEq, Repr

/-- `state_manager.flag_to_dict`: `None -> None`, otherwise the dict with the
same `id` (via `int`, identity on an integer) and `date`. -/
def flag_to_dict (flag : Option MsgFlag) : Option FlagDict :=
  match flag with
  | none => none
  | some f => some { id := f.id, date := f.date }

/-- `state_manager.dict_to_flag`: a falsy dict (`None`; an empty dict is not
representable in this embedding) maps to `None`, otherwise `MsgFlag` is rebuilt
from the `id` and `date` entries. -/
def dict_to_flag (d : Option FlagDict) : Option MsgFlag :=
  match d with
  | none => none
  | some x => some { id := x.id, date := x.date }

/-- The `meta` sub-dict written at run start and completed at run end
(`telegram_handler.collect_links_with_flags`). -/
structure RunMeta where
  channel : String
  search_term : String
  batch_size : Nat
  max_records : Nat
  run_reason : String
  started_at : String
  finished_at : Option String := none
  collected : Option Nat := none
deriving DecidableEq, Repr

/-- The persisted harvester state (the JSON dict handled by
`state_manager.StateStore`).  `status` is the literal string stored in the
dict (`idle` or `in_progress`); `meta` is absent (`none`) until a run has
written it. -/
structure HarvestState where
  version : Nat := 1
  status : String := "idle"
  created_at : String := ""
  updated_at : String := ""
  start_flag : Option FlagDict := none
  middle_flag : Option FlagDict := none
  end_flag : Option FlagDict := none
  last_run : Option String := none
  meta : Option RunMeta := none
deriving DecidableEq, Repr

/-- The fresh default state returned by `StateStore.load` when no file exists
on disk. -/
def freshState (now : String) : HarvestState :=
  { version := 1, status := "idle", created_at := now, updated_at := now,
    start_flag := none, middle_flag := none, end_flag := none,
    last_run := none, meta := none }

/-! Section: the checkpoint file on disk (`StateStore.save`)

`save` serializes the state with `json.dump` into `path + ".tmp"` and then
`os.replace`s the temp file onto `path`.  `os.replace` is atomic by its
documented contract, so it is modelled as a single step; the write of the
temp file may be cut short by a crash, which is modelled as leaving an
arbitrary prefix of the serialized bytes in the temp file.  The serializer
is kept abstract (`encode`). -/

/-- The two files `StateStore` touches: `self.path` (`main`) and
`self.path + ".tmp"` (`tmp`); `none` means the file does not exist. -/
structure FSModel where
  main : Option (List Char)
  tmp : Option (List Char)
deriving DecidableEq, Repr

/-- `state_manager.StateStore.save`: refresh `updated_at` (mutating the
caller's dict, hence the returned state), serialize to the temp file, then
atomically replace the state file.  Returns the file system and the state
dict as the caller now sees it. -/
def StateStore.save (encode : HarvestState → List Char) (fs : FSModel)
    (st : HarvestState) (now : String) : FSModel × HarvestState :=
  let st' := { st with updated_at := now }
  let fs1 := { fs with tmp := some (encode st') }
  ({ main := fs1.tmp, tmp := none }, st')

/-- Crash points of one `StateStore.save` call: before anything happened,
while the temp file is being written (`k` bytes made it to disk), after the
temp write completed, and after the atomic replace. -/
inductive SaveCrash where
  | beforeWrite
  | duringTmpWrite (k : Nat)
  | afterTmpWrite
  | afterReplace
deriving DecidableEq, Repr

/-- The file system as left behind when the process dies at the given point
of a `StateStore.save` call. -/
def saveCrashed (encode : HarvestState → List Char) (fs : FSModel)
    (st : HarvestState) (now : String) : SaveCrash → FSModel
  | .beforeWrite => fs
  | .duringTmpWrite k =>
      { fs with tmp := some ((encode { st with updated_at := now }).take k) }
  | .afterTmpWrite =>
      { fs with tmp := some (encode { st with updated_at := now }) }
  | .afterReplace => (StateStore.save encode fs st now).1

/-- Forget the `updated_at` stamp of a state (the one field `save` refreshes
on every call). -/
def eraseUpdatedAt (st : HarvestState) : HarvestState :=
  { st with updated_at := "" }

/-! Section: messages and URL extraction (`telegram_handler.py`) -/

/-- One inline keyboard button of a message; telethon's `Button.url` is
`None` for buttons (e.g. callback buttons) that carry no URL. -/
structure InlineButton where
  url : Option String
deriving DecidableEq, Repr

/-- A Telegram message as the harvester sees it: `id`, the ISO-rendered
`date`, the text (`msg.message`, with Python `None` embedded as the empty
string exactly as the source's `msg.message or ""` produces), and the inline
button rows (`msg.buttons`, with `None` embedded as `[]`, which the source's
truthiness test treats identically). -/
structure Message where
  id : Nat
  date : String
  text : String
  buttons : List (List InlineButton)
deriving DecidableEq, Repr

/-- `MsgFlag.from_message`: capture id and date of a message. -/
def MsgFlag.fromMessage (m : Message) : MsgFlag :=
  { id := m.id, date := m.date }

/-- Python's substring test `needle in hay` (case-sensitive, exact). -/
def strContainsAux (n : List Char) : List Char → Bool
  | [] => n.isPrefixOf []
  | c :: t => n.isPrefixOf (c :: t) || strContainsAux n t

/-- Python's `needle in hay` on strings. -/
def strContains (hay needle : String) : Bool :=
  strContainsAux needle.toList hay.toList

/-- Python's `str.strip()` with no argument: drop whitespace from both ends. -/
def pyStrip (s : String) : String :=
  String.mk (((s.toList.dropWhile Char.isWhitespace).reverse.dropWhile
    Char.isWhitespace).reverse)

/-- Python's `str.strip(chars)`: drop any characters of the set from both
ends. -/
def pyStripChars (s : String) (cs : List Char) : String :=
  String.mk (((s.toList.dropWhile (cs.contains ·)).reverse.dropWhile
    (cs.contains ·)).reverse)

/-- `telegram_handler._normalize_channel_username`: turn
`https://t.me/xxx` / `http://t.me/xxx` / `t.me/xxx` / `@xxx` into `xxx`.
Each `replace(p, "", 1)` in the source is guarded by `startswith(p)`, so it
removes exactly the prefix; the final `strip("/@ ")` trims slashes, at-signs
and blanks from both ends, and an empty remainder yields `None`. -/
def normalize_channel_username (channel_name : String) : Option String :=
  let s0 := pyStrip channel_name
  let s1 := if s0.startsWith "https://t.me/" then s0.drop 13 else s0
  let s2 := if s1.startsWith "http://t.me/" then s1.drop 12 else s1
  let s3 := if s2.startsWith "t.me/" then s2.drop 5 else s2
  let s4 := pyStripChars s3 ['/', '@', ' ']
  if s4.isEmpty then none else some s4

/-- The maximal leading run of non-whitespace characters (regex `\S+`,
greedy). -/
def nonspaceRun (cs : List Char) : List Char :=
  cs.takeWhile (fun c => !c.isWhitespace)

/-- One anchored attempt of the regex `https?://\S+` at the head of `cs`:
the scheme must be a literal `https://` or `http://` prefix and at least one
non-whitespace character must follow; the match (`group(0)`) is the scheme
plus the maximal non-whitespace run. -/
def urlMatchAt (cs : List Char) : Option (List Char) :=
  if "https://".toList.isPrefixOf cs then
    let run := nonspaceRun (cs.drop 8)
    if run.isEmpty then none else some ("https://".toList ++ run)
  else if "http://".toList.isPrefixOf cs then
    let run := nonspaceRun (cs.drop 7)
    if run.isEmpty then none else some ("http://".toList ++ run)
  else none

/-- `re.search` of `_URL_RE = https?://\S+`: try every position left to
right and return the leftmost match. -/
def urlSearchAux : List Char → Option (List Char)
  | [] => none
  | c :: t =>
    match urlMatchAt (c :: t) with
    | some u => some u
    | none => urlSearchAux t

/-- First URL-like substring of a string (`_URL_RE.search(text)` with
`m.group(0)`). -/
def urlSearch (s : String) : Option String :=
  (urlSearchAux s.toList).map String.mk

/-- `telegram_handler._extract_url`.
1. If `msg.buttons` is truthy and `msg.buttons[0][0]` exists, the source
   returns `msg.buttons[0][0].url` directly — including `None` when that
   button carries no URL (the `except` only catches exceptions, e.g. the
   IndexError of an empty first row, which falls through to step 2).
2. Otherwise search the stripped text for the first URL-like substring.
3. Otherwise build the `https://t.me/<username>/<id>` permalink, unless the
   channel name normalizes to nothing, in which case the result is `None`. -/
def extract_url (msg : Message) (channel_name : String) : Option String :=
  match msg.buttons with
  | (b :: _) :: _ => b.url
  | _ =>
    match urlSearch (pyStrip msg.text) with
    | some u => some u
    | none =>
      match normalize_channel_username channel_name with
      | some username =>
          some ("https://t.me/" ++ username ++ "/" ++ toString msg.id)
      | none => none

/-- `telegram_handler.CollectedRecord`. -/
structure CollectedRecord where
  url : String
  date : String
  message_id : Nat
deriving DecidableEq, Repr

/-! Section: the harvest run (`telegram_handler.collect_links_with_flags`)

The run is embedded as a state machine over `LoopSt`; every observable
side effect (a `StateStore.save`, an `asyncio.sleep`, a reconnect, and —
as pure instrumentation of the control flow — each message the inner
`for` loop processes) is recorded in an event trace.  Timestamps written
into `meta` are opaque inputs, and the `updated_at` refresh performed by
each `save` call is studied separately at the `StateStore` level, so the
trace records the state dict passed to `save`. -/

/-- Observable events of one run: a checkpoint save (with the state dict
handed to `StateStore.save`), a sleep of the given duration, a proactive
disconnect/reconnect of the transport, and the processing of one message by
the batch scan loop. -/
inductive RunEvent where
  | save (st : HarvestState)
  | sleep (d : ℚ)
  | reconnect
  | scan (m : Message)
deriving DecidableEq, Repr

/-- Result of scanning one batch (the `for msg in messages` loop): the grown
`collected` list, the possibly advanced `end_flag` dict, the final
`last_in_batch`, and the list of messages actually processed (in processing
order — the loop's iteration trace). -/
structure ScanResult where
  collected : List CollectedRecord
  end_flag : Option FlagDict
  last : Option MsgFlag
  scanned : List Message
deriving DecidableEq, Repr

/-- The run parameters of `collect_links_with_flags`. -/
structure RunConfig where
  channel_name : String
  search_term : String
  max_records : Nat
  batch_size : Nat
deriving DecidableEq, Repr

/-- The `for msg in messages` loop of `collect_links_with_flags`
(lines 190-222): `last_in_batch` is set for every message; a message whose
text contains `search_term` and yields a URL (`if not url: continue` skips
`None` and the empty string) appends a `CollectedRecord` and advances
`end_flag`; the loop breaks as soon as `collected` reaches `max_records`. -/
def scanBatch (cfg : RunConfig) :
    List Message → List CollectedRecord → Option FlagDict → Option MsgFlag →
    ScanResult
  | [], coll, ef, last => ⟨coll, ef, last, []⟩
  | m :: rest, coll, ef, _ =>
    let lastNow := some (MsgFlag.fromMessage m)
    if strContains m.text cfg.search_term then
      match extract_url m cfg.channel_name with
      | some url =>
        if url.isEmpty then
          let r := scanBatch cfg rest coll ef lastNow
          ⟨r.collected, r.end_flag, r.last, m :: r.scanned⟩
        else
          let coll' := coll ++ [⟨url, m.date, m.id⟩]
          let ef' := flag_to_dict (some (MsgFlag.fromMessage m))
          if cfg.max_records ≤ coll'.length then ⟨coll', ef', lastNow, [m]⟩
          else
            let r := scanBatch cfg rest coll' ef' lastNow
            ⟨r.collected, r.end_flag, r.last, m :: r.scanned⟩
      | none =>
        let r := scanBatch cfg rest coll ef lastNow
        ⟨r.collected, r.end_flag, r.last, m :: r.scanned⟩
    else
      let r := scanBatch cfg rest coll ef lastNow
      ⟨r.collected, r.end_flag, r.last, m :: r.scanned⟩

/-- In-flight state of the main `while` loop: the records collected so far,
the current cursor, the in-memory state dict, the state dict currently on
disk (`file`, what `store.load()` would return), and the event trace. -/
structure LoopSt where
  collected : List CollectedRecord
  cursor : Option MsgFlag
  st : HarvestState
  file : HarvestState
  events : List RunEvent
deriving DecidableEq, Repr

/-- Resume-strategy selection of `collect_links_with_flags` (lines 124-138):
the `if / elif / else` over the loaded state.  Note the `elif` tests only
`prev_end is not None`; it does not test `status`. -/
def selectStrategy (st : HarvestState) : String × Option MsgFlag :=
  let prev_end := dict_to_flag st.end_flag
  let prev_middle := dict_to_flag st.middle_flag
  if st.status == "in_progress" && prev_middle.isSome then
    ("resume_unfinished", prev_middle)
  else if prev_end.isSome then
    ("continue_archive", prev_end)
  else
    ("first_run", none)

/-- The transport-failure recovery step (lines 171-177): log, sleep `δ`,
reload the state from the checkpoint store (`state = store.load()`), and
reset the cursor to the freshly loaded `middle_flag`, keeping the in-memory
cursor when none is persisted (`dict_to_flag(state.get("middle_flag")) or
cursor`). -/
def failStep (δ : ℚ) (s : LoopSt) : LoopSt :=
  { s with
    st := s.file
    cursor := (match dict_to_flag s.file.middle_flag with
      | some f => some f
      | none => s.cursor)
    events := s.events ++ [RunEvent.sleep δ] }

/-- One successful batch iteration of the main loop (lines 179-237): scan
the messages, record the collected records and the advanced `end_flag` in
the in-memory state, then — when `last_in_batch` was set, which a nonempty
batch always does — advance the cursor, write `middle_flag` and save; and
finally, when the batch was full and the cap is not yet reached, disconnect,
sleep `δ` and reconnect. -/
def batchStep (cfg : RunConfig) (δ : ℚ) (msgs : List Message)
    (s : LoopSt) : LoopSt :=
  let r := scanBatch cfg msgs s.collected s.st.end_flag none
  let st1 := { s.st with end_flag := r.end_flag }
  let s1 : LoopSt :=
    { s with collected := r.collected, st := st1,
             events := s.events ++ r.scanned.map RunEvent.scan }
  let s2 : LoopSt :=
    match r.last with
    | some lf =>
      let st2 := { st1 with middle_flag := flag_to_dict (some lf) }
      { s1 with cursor := some lf, st := st2, file := st2,
                events := s1.events ++ [RunEvent.save st2] }
    | none => s1
  if cfg.batch_size ≤ msgs.length ∧ r.collected.length < cfg.max_records
  then { s2 with events := s2.events ++ [RunEvent.sleep δ, RunEvent.reconnect] }
  else s2

/-- The main `while len(collected) < max_records` loop (lines 167-238),
driven by the fetch oracle and a fuel bound (the source loop is unbounded;
`fuel` only limits how far the embedding unrolls it; `k` numbers the fetch
attempts).  A failed fetch recovers via `failStep` and retries; an empty
batch stops the loop; a nonempty batch is handled by `batchStep`.  Returns
the final loop state and whether the loop exited by itself (cap reached or
empty batch) rather than by fuel exhaustion. -/
def runLoop (cfg : RunConfig) (δ : ℚ)
    (fetch : Nat → Option MsgFlag → Option (List Message)) :
    Nat → Nat → LoopSt → LoopSt × Bool
  | 0, _, s => (s, decide (cfg.max_records ≤ s.collected.length))
  | fuel + 1, k, s =>
    if cfg.max_records ≤ s.collected.length then (s, true)
    else
      match fetch k s.cursor with
      | none => runLoop cfg δ fetch fuel (k + 1) (failStep δ s)
      | some [] => (s, true)
      | some (m :: ms) =>
        runLoop cfg δ fetch fuel (k + 1) (batchStep cfg δ (m :: ms) s)

/-- Result of one full `collect_links_with_flags` call. -/
structure RunResult where
  collected : List CollectedRecord
  state : HarvestState
  file : HarvestState
  events : List RunEvent
  run_reason : String
  finished : Bool
deriving DecidableEq, Repr

/-- The run-start bookkeeping of `collect_links_with_flags` (lines 140-154):
mark the status `in_progress`, write a fresh `meta`, record `start_flag`
from the newest message when one exists, and overwrite `middle_flag` with
the resume cursor when one exists. -/
def runStartState (cfg : RunConfig) (latest_flag : Option MsgFlag)
    (st0 : HarvestState) (startedAt : String) : HarvestState :=
  let sel := selectStrategy st0
  let meta : RunMeta :=
    { channel := cfg.channel_name, search_term := cfg.search_term,
      batch_size := cfg.batch_size, max_records := cfg.max_records,
      run_reason := sel.1, started_at := startedAt }
  let st1 := { st0 with status := "in_progress", meta := some meta }
  let st2 :=
    match latest_flag with
    | some lf => { st1 with start_flag := flag_to_dict (some lf) }
    | none => st1
  match sel.2 with
  | some c => { st2 with middle_flag := flag_to_dict (some c) }
  | none => st2

/-- The loop state just after the run-start checkpoint (`store.save(state)`
at line 154): nothing collected, the cursor chosen by the resume strategy,
and the started state both in memory and on disk. -/
def initLoopSt (cfg : RunConfig) (latest_flag : Option MsgFlag)
    (st0 : HarvestState) (startedAt : String) : LoopSt :=
  { collected := [], cursor := (selectStrategy st0).2,
    st := runStartState cfg latest_flag st0 startedAt,
    file := runStartState cfg latest_flag st0 startedAt,
    events := [RunEvent.save (runStartState cfg latest_flag st0 startedAt)] }

/-- The run-end bookkeeping (lines 239-243): status back to `idle` and
completion metadata.  The source's `state["meta"]["finished_at"] = ...`
presumes `meta` is present, which every state reaching this point has; an
absent `meta` is left absent. -/
def finalizeState (st : HarvestState) (finishedAt : String) (n : Nat) :
    HarvestState :=
  { st with
    status := "idle"
    meta := st.meta.map (fun mm =>
      { mm with finished_at := some finishedAt, collected := some n }) }

/-- `telegram_handler.collect_links_with_flags` (lines 91-245).  Inputs it
receives from its environment are parameters: the loaded state `st0`
(`store.load()`), the newest message's flag `latest_flag`
(`_get_latest_message_flag`), the two wall-clock strings, the fetch oracle
and the fuel for the unbounded loop.  It selects the resume strategy, marks
the run started and saves, runs the batch loop, then finalizes and saves. -/
def collect_links_with_flags (cfg : RunConfig) (δ : ℚ)
    (latest_flag : Option MsgFlag) (st0 : HarvestState)
    (startedAt finishedAt : String)
    (fetch : Nat → Option MsgFlag → Option (List Message)) (fuel : Nat) :
    RunResult :=
  let s0 := initLoopSt cfg latest_flag st0 startedAt
  let res := runLoop cfg δ fetch fuel 0 s0
  let stF := finalizeState res.1.st finishedAt res.1.collected.length
  { collected := res.1.collected, state := stF, file := stF,
    events := res.1.events ++ [RunEvent.save stF],
    run_reason := (selectStrategy st0).1, finished := res.2 }

/-- The archive transport instantiated on a fixed archive, for the concrete
scenarios: the archive is a list of messages in newest-to-oldest order, and
`iter_messages` with `offset_id` returns up to `batch_size` messages whose
ids are strictly below the cursor's id. -/
def fetchBatch (archive : List Message) (batch_size : Nat)
    (cursor : Option MsgFlag) : List Message :=
  match cursor with
  | none => archive.take batch_size
  | some c => (archive.filter (fun m => m.id < c.id)).take batch_size

/-! Section: trace observables and the transport contract -/

/-- The messages processed by the scan loop, in processing order, as recorded
in an event trace. -/
def scansIn (evs : List RunEvent) : List Message :=
  evs.filterMap (fun e => match e with | RunEvent.scan m => some m | _ => none)

/-- The state dicts handed to `StateStore.save`, in order, as recorded in an
event trace. -/
def savesOf (evs : List RunEvent) : List HarvestState :=
  evs.filterMap (fun e => match e with | RunEvent.save st => some st | _ => none)

/-- One step of the `middle_flag` discipline along a trace: walking the
events left to right with the messages scanned so far in `seen`, every saved
state's `middle_flag`, when present, must be at or older than every message
scanned before that save. -/
def middleOkAux : List RunEvent → List Message → Bool
  | [], _ => true
  | RunEvent.scan m :: r, seen => middleOkAux r (seen ++ [m])
  | RunEvent.save st :: r, seen =>
    (match dict_to_flag st.middle_flag with
     | some f => seen.all (fun m => decide (f.id ≤ m.id))
     | none => true) && middleOkAux r seen
  | _ :: r, seen => middleOkAux r seen

/-- Every checkpoint written during a trace carries a `middle_flag` at or
older than everything scanned up to that point. -/
def middleOk (evs : List RunEvent) : Bool := middleOkAux evs []

/-- Non-increase of `middle_flag` between two consecutive saved states: once
a `middle_flag` is persisted it never disappears and its id never grows. -/
def middleStepOk (a b : HarvestState) : Bool :=
  match dict_to_flag a.middle_flag, dict_to_flag b.middle_flag with
  | some fa, some fb => decide (fb.id ≤ fa.id)
  | some _, none => false
  | none, _ => true

/-- The transport contract of one successful fetch (`iter_messages` with an
`offset_id`): messages arrive strictly newest-to-oldest, and all strictly
older than the supplied cursor. -/
def GoodBatch (cursor : Option MsgFlag) (msgs : List Message) : Prop :=
  List.Chain' (fun a b => b.id < a.id) msgs ∧
  ∀ c, cursor = some c → ∀ m ∈ msgs, m.id < c.id

/-- A fetch oracle whose every successful batch honours the transport
contract for the cursor it was asked about. -/
def GoodFetcher (fetch : Nat → Option MsgFlag → Option (List Message)) : Prop :=
  ∀ k c msgs, fetch k c = some msgs → GoodBatch c msgs

/-- The id of a persisted `end_flag`, as a zero- or one-element list (for
prepending to the collected ids when stating cursor monotonicity). -/
def endIds (d : Option FlagDict) : List Nat :=
  match dict_to_flag d with
  | some g => [g.id]
  | none => []

/-- Well-formedness of a loaded state as the protocol itself leaves it:
if a crashed run is being resumed with both flags present, the persisted
`middle_flag` is at or older than the persisted `end_flag`. -/
def WFResume (st : HarvestState) : Prop :=
  ∀ f g, st.status = "in_progress" → dict_to_flag st.middle_flag = some f →
    dict_to_flag st.end_flag = some g → f.id ≤ g.id

theorem scansIn_append (a b : List RunEvent) :
    scansIn (a ++ b) = scansIn a ++ scansIn b := by
  simp [scansIn]

theorem savesOf_append (a b : List RunEvent) :
    savesOf (a ++ b) = savesOf a ++ savesOf b := by
  simp [savesOf]

@[simp] theorem scansIn_nil : scansIn [] = [] := rfl

@[simp] theorem scansIn_cons_save (st : HarvestState) (r : List RunEvent) :
    scansIn (RunEvent.save st :: r) = scansIn r := rfl

@[simp] theorem scansIn_cons_sleep (d : ℚ) (r : List RunEvent) :
    scansIn (RunEvent.sleep d :: r) = scansIn r := rfl

@[simp] theorem scansIn_cons_reconnect (r : List RunEvent) :
    scansIn (RunEvent.reconnect :: r) = scansIn r := rfl

@[simp] theorem scansIn_cons_scan (m : Message) (r : List RunEvent) :
    scansIn (RunEvent.scan m :: r) = m :: scansIn r := rfl

@[simp] theorem savesOf_nil : savesOf [] = [] := rfl

@[simp] theorem savesOf_cons_save (st : HarvestState) (r : List RunEvent) :
    savesOf (RunEvent.save st :: r) = st :: savesOf r := rfl

@[simp] theorem savesOf_cons_sleep (d : ℚ) (r : List RunEvent) :
    savesOf (RunEvent.sleep d :: r) = savesOf r := rfl

@[simp] theorem savesOf_cons_reconnect (r : List RunEvent) :
    savesOf (RunEvent.reconnect :: r) = savesOf r := rfl

@[simp] theorem savesOf_cons_scan (m : Message) (r : List RunEvent) :
    savesOf (RunEvent.scan m :: r) = savesOf r := rfl

theorem middleOkAux_append (a b : List RunEvent) (seen : List Message) :
    middleOkAux (a ++ b) seen
      = (middleOkAux a seen && middleOkAux b (seen ++ scansIn a)) := by
  induction a generalizing seen with
  | nil => simp [middleOkAux]
  | cons e r ih =>
    cases e with
    | save st =>
      simp only [List.cons_append, middleOkAux, scansIn_cons_save]
      cases dict_to_flag st.middle_flag with
      | none => exact ih seen
      | some f => rw [List.append_eq, ih seen, Bool.and_assoc]
    | sleep d =>
      simp only [List.cons_append, middleOkAux, scansIn_cons_sleep]
      exact ih seen
    | reconnect =>
      simp only [List.cons_append, middleOkAux, scansIn_cons_reconnect]
      exact ih seen
    | scan m =>
      simp only [List.cons_append, middleOkAux, scansIn_cons_scan]
      rw [List.append_eq, ih (seen ++ [m])]
      simp [List.append_assoc]

/-! Section: unfolding lemmas for the batch scan, one per control path -/

theorem scanBatch_nil (cfg : RunConfig) (coll : List CollectedRecord)
    (ef : Option FlagDict) (l₀ : Option MsgFlag) :
    scanBatch cfg [] coll ef l₀ = ⟨coll, ef, l₀, []⟩ := rfl

theorem scanBatch_cons_nomatch (cfg : RunConfig) (m : Message)
    (rest : List Message) (coll : List CollectedRecord) (ef : Option FlagDict)
    (l₀ : Option MsgFlag)
    (h : strContains m.text cfg.search_term = false) :
    scanBatch cfg (m :: rest) coll ef l₀ =
      ⟨(scanBatch cfg rest coll ef (some (MsgFlag.fromMessage m))).collected,
       (scanBatch cfg rest coll ef (some (MsgFlag.fromMessage m))).end_flag,
       (scanBatch cfg rest coll ef (some (MsgFlag.fromMessage m))).last,
       m :: (scanBatch cfg rest coll ef (some (MsgFlag.fromMessage m))).scanned⟩ := by
  simp [scanBatch, h]

theorem scanBatch_cons_nourl (cfg : RunConfig) (m : Message)
    (rest : List Message) (coll : List CollectedRecord) (ef : Option FlagDict)
    (l₀ : Option MsgFlag)
    (h1 : strContains m.text cfg.search_term = true)
    (h2 : extract_url m cfg.channel_name = none) :
    scanBatch cfg (m :: rest) coll ef l₀ =
      ⟨(scanBatch cfg rest coll ef (some (MsgFlag.fromMessage m))).collected,
       (scanBatch cfg rest coll ef (some (MsgFlag.fromMessage m))).end_flag,
       (scanBatch cfg rest coll ef (some (MsgFlag.fromMessage m))).last,
       m :: (scanBatch cfg rest coll ef (some (MsgFlag.fromMessage m))).scanned⟩ := by
  simp [scanBatch, h1, h2]

theorem scanBatch_cons_emptyurl (cfg : RunConfig) (m : Message)
    (rest : List Message) (coll : List CollectedRecord) (ef : Option FlagDict)
    (l₀ : Option MsgFlag)
    (h1 : strContains m.text cfg.search_term = true)
    (h2 : extract_url m cfg.channel_name = some "") :
    scanBatch cfg (m :: rest) coll ef l₀ =
      ⟨(scanBatch cfg rest coll ef (some (MsgFlag.fromMessage m))).collected,
       (scanBatch cfg rest coll ef (some (MsgFlag.fromMessage m))).end_flag,
       (scanBatch cfg rest coll ef (some (MsgFlag.fromMessage m))).last,
       m :: (scanBatch cfg rest coll ef (some (MsgFlag.fromMessage m))).scanned⟩ := by
  simp [scanBatch, h1, h2, String.isEmpty]

theorem scanBatch_cons_collect (cfg : RunConfig) (m : Message)
    (rest : List Message) (coll : List CollectedRecord) (ef : Option FlagDict)
    (l₀ : Option MsgFlag) (url : String)
    (h1 : strContains m.text cfg.search_term = true)
    (h2 : extract_url m cfg.channel_name = some url)
    (h3 : url.isEmpty = false) :
    scanBatch cfg (m :: rest) coll ef l₀ =
      (if cfg.max_records ≤ (coll ++ [(CollectedRecord.mk url m.date m.id)]).length then
        (⟨coll ++ [(CollectedRecord.mk url m.date m.id)],
         flag_to_dict (some (MsgFlag.fromMessage m)),
         some (MsgFlag.fromMessage m), [m]⟩ : ScanResult)
       else
        ⟨(scanBatch cfg rest (coll ++ [CollectedRecord.mk url m.date m.id])
            (flag_to_dict (some (MsgFlag.fromMessage m)))
            (some (MsgFlag.fromMessage m))).collected,
         (scanBatch cfg rest (coll ++ [CollectedRecord.mk url m.date m.id])
            (flag_to_dict (some (MsgFlag.fromMessage m)))
            (some (MsgFlag.fromMessage m))).end_flag,
         (scanBatch cfg rest (coll ++ [CollectedRecord.mk url m.date m.id])
            (flag_to_dict (some (MsgFlag.fromMessage m)))
            (some (MsgFlag.fromMessage m))).last,
         m :: (scanBatch cfg rest (coll ++ [CollectedRecord.mk url m.date m.id])
            (flag_to_dict (some (MsgFlag.fromMessage m)))
            (some (MsgFlag.fromMessage m))).scanned⟩) := by
  simp only [scanBatch, h1, h2, h3, if_true, if_false, Bool.false_eq_true]

/-! Section: structural lemmas about the batch scan -/

theorem scanBatch_scanned_isPre (cfg : RunConfig) :
    ∀ (msgs : List Message) (coll : List CollectedRecord)
      (ef : Option FlagDict) (l₀ : Option MsgFlag),
    ∃ t, msgs = (scanBatch cfg msgs coll ef l₀).scanned ++ t := by
  intro msgs
  induction msgs with
  | nil => intro coll ef l₀; exact ⟨[], rfl⟩
  | cons m rest ih =>
    intro coll ef l₀
    by_cases h1 : strContains m.text cfg.search_term = true
    · cases h2 : extract_url m cfg.channel_name with
      | none =>
        rw [scanBatch_cons_nourl cfg m rest coll ef l₀ h1 h2]
        obtain ⟨t, ht⟩ := ih coll ef (some (MsgFlag.fromMessage m))
        exact ⟨t, by simpa using congrArg (m :: ·) ht⟩
      | some url =>
        by_cases h3 : url.isEmpty = true
        · have hu : url = "" := (String.isEmpty_iff url).mp h3
          subst hu
          rw [scanBatch_cons_emptyurl cfg m rest coll ef l₀ h1 h2]
          obtain ⟨t, ht⟩ := ih coll ef (some (MsgFlag.fromMessage m))
          exact ⟨t, by simpa using congrArg (m :: ·) ht⟩
        · rw [scanBatch_cons_collect cfg m rest coll ef l₀ url h1 h2
            (by simpa using h3)]
          by_cases h4 : cfg.max_records
              ≤ (coll ++ [CollectedRecord.mk url m.date m.id]).length
          · simp only [if_pos h4]
            exact ⟨rest, rfl⟩
          · simp only [if_neg h4]
            obtain ⟨t, ht⟩ := ih (coll ++ [CollectedRecord.mk url m.date m.id])
              (flag_to_dict (some (MsgFlag.fromMessage m)))
              (some (MsgFlag.fromMessage m))
            exact ⟨t, by simpa using congrArg (m :: ·) ht⟩
    · rw [scanBatch_cons_nomatch cfg m rest coll ef l₀ (by simpa using h1)]
      obtain ⟨t, ht⟩ := ih coll ef (some (MsgFlag.fromMessage m))
      exact ⟨t, by simpa using congrArg (m :: ·) ht⟩

theorem scanBatch_last (cfg : RunConfig) :
    ∀ (msgs : List Message) (coll : List CollectedRecord)
      (ef : Option FlagDict) (l₀ : Option MsgFlag), msgs ≠ [] →
    ∃ mL, (scanBatch cfg msgs coll ef l₀).scanned.getLast? = some mL ∧
      (scanBatch cfg msgs coll ef l₀).last = some (MsgFlag.fromMessage mL) := by
  intro msgs
  induction msgs with
  | nil => intro _ _ _ h; exact absurd rfl h
  | cons m rest ih =>
    intro coll ef l₀ _
    by_cases h1 : strContains m.text cfg.search_term = true
    · cases h2 : extract_url m cfg.channel_name with
      | none =>
        rw [scanBatch_cons_nourl cfg m rest coll ef l₀ h1 h2]
        by_cases hr : rest = []
        · subst hr
          exact ⟨m, by simp [scanBatch_nil]⟩
        · obtain ⟨mL, hL1, hL2⟩ := ih coll ef (some (MsgFlag.fromMessage m)) hr
          refine ⟨mL, ?_, by simpa using hL2⟩
          cases hsc : (scanBatch cfg rest coll ef
              (some (MsgFlag.fromMessage m))).scanned with
          | nil => rw [hsc] at hL1; exact (Option.some_ne_none mL hL1.symm).elim
          | cons a l => rw [hsc] at hL1; simpa [List.getLast?_cons_cons] using hL1
      | some url =>
        by_cases h3 : url.isEmpty = true
        · have hu : url = "" := (String.isEmpty_iff url).mp h3
          subst hu
          rw [scanBatch_cons_emptyurl cfg m rest coll ef l₀ h1 h2]
          by_cases hr : rest = []
          · subst hr
            exact ⟨m, by simp [scanBatch_nil]⟩
          · obtain ⟨mL, hL1, hL2⟩ := ih coll ef (some (MsgFlag.fromMessage m)) hr
            refine ⟨mL, ?_, by simpa using hL2⟩
            cases hsc : (scanBatch cfg rest coll ef
                (some (MsgFlag.fromMessage m))).scanned with
            | nil => rw [hsc] at hL1; exact (Option.some_ne_none mL hL1.symm).elim
            | cons a l => rw [hsc] at hL1; simpa [List.getLast?_cons_cons] using hL1
        · rw [scanBatch_cons_collect cfg m rest coll ef l₀ url h1 h2
            (by simpa using h3)]
          by_cases h4 : cfg.max_records
              ≤ (coll ++ [CollectedRecord.mk url m.date m.id]).length
          · simp only [if_pos h4]
            exact ⟨m, by simp⟩
          · simp only [if_neg h4]
            by_cases hr : rest = []
            · subst hr
              exact ⟨m, by simp [scanBatch_nil]⟩
            · obtain ⟨mL, hL1, hL2⟩ :=
                ih (coll ++ [CollectedRecord.mk url m.date m.id])
                  (flag_to_dict (some (MsgFlag.fromMessage m)))
                  (some (MsgFlag.fromMessage m)) hr
              refine ⟨mL, ?_, by simpa using hL2⟩
              cases hsc : (scanBatch cfg rest
                  (coll ++ [CollectedRecord.mk url m.date m.id])
                  (flag_to_dict (some (MsgFlag.fromMessage m)))
                  (some (MsgFlag.fromMessage m))).scanned with
              | nil => rw [hsc] at hL1; exact (Option.some_ne_none mL hL1.symm).elim
              | cons a l => rw [hsc] at hL1; simpa [List.getLast?_cons_cons] using hL1
    · rw [scanBatch_cons_nomatch cfg m rest coll ef l₀ (by simpa using h1)]
      by_cases hr : rest = []
      · subst hr
        exact ⟨m, by simp [scanBatch_nil]⟩
      · obtain ⟨mL, hL1, hL2⟩ := ih coll ef (some (MsgFlag.fromMessage m)) hr
        refine ⟨mL, ?_, by simpa using hL2⟩
        cases hsc : (scanBatch cfg rest coll ef
            (some (MsgFlag.fromMessage m))).scanned with
        | nil => rw [hsc] at hL1; exact (Option.some_ne_none mL hL1.symm).elim
        | cons a l => rw [hsc] at hL1; simpa [List.getLast?_cons_cons] using hL1

theorem scanBatch_delta (cfg : RunConfig) :
    ∀ (msgs : List Message) (coll : List CollectedRecord)
      (ef : Option FlagDict) (l₀ : Option MsgFlag),
    ∃ Δ, (scanBatch cfg msgs coll ef l₀).collected = coll ++ Δ ∧
      (∀ rec ∈ Δ, ∃ m, m ∈ (scanBatch cfg msgs coll ef l₀).scanned ∧
        rec.message_id = m.id ∧ rec.date = m.date ∧
        strContains m.text cfg.search_term = true ∧
        extract_url m cfg.channel_name = some rec.url) ∧
      (Δ = [] → (scanBatch cfg msgs coll ef l₀).end_flag = ef) ∧
      (∀ rec, Δ.getLast? = some rec →
        (scanBatch cfg msgs coll ef l₀).end_flag
          = some (FlagDict.mk rec.message_id rec.date)) := by
  intro msgs
  induction msgs with
  | nil =>
    intro coll ef l₀
    exact ⟨[], by simp [scanBatch_nil], by simp, fun _ => rfl, by simp⟩
  | cons m rest ih =>
    intro coll ef l₀
    by_cases h1 : strContains m.text cfg.search_term = true
    · cases h2 : extract_url m cfg.channel_name with
      | none =>
        rw [scanBatch_cons_nourl cfg m rest coll ef l₀ h1 h2]
        obtain ⟨Δ, hA, hB, hC, hD⟩ := ih coll ef (some (MsgFlag.fromMessage m))
        refine ⟨Δ, hA, ?_, hC, hD⟩
        intro rec hrec
        obtain ⟨m', hm', rest'⟩ := hB rec hrec
        exact ⟨m', List.mem_cons_of_mem m hm', rest'⟩
      | some url =>
        by_cases h3 : url.isEmpty = true
        · have hu : url = "" := (String.isEmpty_iff url).mp h3
          subst hu
          rw [scanBatch_cons_emptyurl cfg m rest coll ef l₀ h1 h2]
          obtain ⟨Δ, hA, hB, hC, hD⟩ := ih coll ef (some (MsgFlag.fromMessage m))
          refine ⟨Δ, hA, ?_, hC, hD⟩
          intro rec hrec
          obtain ⟨m', hm', rest'⟩ := hB rec hrec
          exact ⟨m', List.mem_cons_of_mem m hm', rest'⟩
        · rw [scanBatch_cons_collect cfg m rest coll ef l₀ url h1 h2
            (by simpa using h3)]
          by_cases h4 : cfg.max_records
              ≤ (coll ++ [CollectedRecord.mk url m.date m.id]).length
          · simp only [if_pos h4]
            refine ⟨[CollectedRecord.mk url m.date m.id], rfl, ?_, ?_, ?_⟩
            · intro rec hrec
              rw [List.mem_singleton] at hrec
              subst hrec
              exact ⟨m, List.mem_singleton.mpr rfl, rfl, rfl, h1, h2⟩
            · intro hc; exact absurd hc (by simp)
            · intro rec hrec
              simp only [List.getLast?_singleton, Option.some.injEq] at hrec
              subst hrec
              rfl
          · simp only [if_neg h4]
            obtain ⟨Δ', hA, hB, hC, hD⟩ :=
              ih (coll ++ [CollectedRecord.mk url m.date m.id])
                (flag_to_dict (some (MsgFlag.fromMessage m)))
                (some (MsgFlag.fromMessage m))
            refine ⟨CollectedRecord.mk url m.date m.id :: Δ', ?_, ?_, ?_, ?_⟩
            · rw [hA]; simp
            · intro rec hrec
              rcases List.mem_cons.mp hrec with hrec | hrec
              · subst hrec
                exact ⟨m, List.mem_cons_self m _, rfl, rfl, h1, h2⟩
              · obtain ⟨m', hm', rest'⟩ := hB rec hrec
                exact ⟨m', List.mem_cons_of_mem m hm', rest'⟩
            · intro hc; exact absurd hc (by simp)
            · intro rec hrec
              cases hΔ : Δ' with
              | nil =>
                subst hΔ
                simp only [List.getLast?_singleton, Option.some.injEq] at hrec
                subst hrec
                exact hC rfl
              | cons a l =>
                subst hΔ
                rw [List.getLast?_cons_cons] at hrec
                exact hD rec hrec
    · rw [scanBatch_cons_nomatch cfg m rest coll ef l₀ (by simpa using h1)]
      obtain ⟨Δ, hA, hB, hC, hD⟩ := ih coll ef (some (MsgFlag.fromMessage m))
      refine ⟨Δ, hA, ?_, hC, hD⟩
      intro rec hrec
      obtain ⟨m', hm', rest'⟩ := hB rec hrec
      exact ⟨m', List.mem_cons_of_mem m hm', rest'⟩

theorem scanBatch_last_le_scanned (cfg : RunConfig) :
    ∀ (msgs : List Message) (coll : List CollectedRecord)
      (ef : Option FlagDict) (l₀ : Option MsgFlag),
    List.Pairwise (fun a b => b.id < a.id) msgs →
    ∀ lf, (scanBatch cfg msgs coll ef l₀).last = some lf →
      ∀ m' ∈ (scanBatch cfg msgs coll ef l₀).scanned, lf.id ≤ m'.id := by
  intro msgs
  induction msgs with
  | nil =>
    intro coll ef l₀ _ lf _ m' hm'
    simp [scanBatch_nil] at hm'
  | cons m rest ih =>
    intro coll ef l₀ hp lf hlf m' hm'
    have hrest : ∀ x ∈ rest, x.id < m.id :=
      fun x hx => (List.pairwise_cons.mp hp).1 x hx
    have hp' : List.Pairwise (fun a b => b.id < a.id) rest :=
      (List.pairwise_cons.mp hp).2
    -- a common continuation for the three cases that recurse without
    -- collecting and the one that recurses after collecting
    have main : ∀ (coll' : List CollectedRecord) (ef' : Option FlagDict),
        (scanBatch cfg rest coll' ef' (some (MsgFlag.fromMessage m))).last
            = some lf →
        m' ∈ m :: (scanBatch cfg rest coll' ef'
            (some (MsgFlag.fromMessage m))).scanned →
        lf.id ≤ m'.id := by
      intro coll' ef' hlf' hm''
      by_cases hr : rest = []
      · subst hr
        simp only [scanBatch_nil] at hlf' hm''
        rcases List.mem_cons.mp hm'' with h | h
        · subst h
          cases hlf'
          exact le_refl _
        · simp at h
      · obtain ⟨mL, hL1, hL2⟩ :=
          scanBatch_last cfg rest coll' ef' (some (MsgFlag.fromMessage m)) hr
        rw [hlf'] at hL2
        cases hL2
        have hmem : mL ∈ (scanBatch cfg rest coll' ef'
            (some (MsgFlag.fromMessage m))).scanned :=
          List.mem_of_getLast?_eq_some hL1
        obtain ⟨t, ht⟩ :=
          scanBatch_scanned_isPre cfg rest coll' ef' (some (MsgFlag.fromMessage m))
        have hmemrest : mL ∈ rest := by rw [ht]; exact List.mem_append_left t hmem
        rcases List.mem_cons.mp hm'' with h | h
        · subst h
          exact le_of_lt (hrest mL hmemrest)
        · exact ih coll' ef' (some (MsgFlag.fromMessage m)) hp' _ hlf' m' h
    by_cases h1 : strContains m.text cfg.search_term = true
    · cases h2 : extract_url m cfg.channel_name with
      | none =>
        rw [scanBatch_cons_nourl cfg m rest coll ef l₀ h1 h2] at hlf hm'
        exact main coll ef hlf hm'
      | some url =>
        by_cases h3 : url.isEmpty = true
        · have hu : url = "" := (String.isEmpty_iff url).mp h3
          subst hu
          rw [scanBatch_cons_emptyurl cfg m rest coll ef l₀ h1 h2] at hlf hm'
          exact main coll ef hlf hm'
        · rw [scanBatch_cons_collect cfg m rest coll ef l₀ url h1 h2
            (by simpa using h3)] at hlf hm'
          by_cases h4 : cfg.max_records
              ≤ (coll ++ [CollectedRecord.mk url m.date m.id]).length
          · rw [if_pos h4] at hlf hm'
            simp only [List.mem_singleton] at hm'
            subst hm'
            cases hlf
            exact le_refl _
          · rw [if_neg h4] at hlf hm'
            exact main (coll ++ [CollectedRecord.mk url m.date m.id])
              (flag_to_dict (some (MsgFlag.fromMessage m))) hlf hm'
    · rw [scanBatch_cons_nomatch cfg m rest coll ef l₀ (by simpa using h1)]
        at hlf hm'
      exact main coll ef hlf hm'

theorem scanBatch_last_le_collected (cfg : RunConfig) :
    ∀ (msgs : List Message) (coll : List CollectedRecord)
      (ef : Option FlagDict) (l₀ : Option MsgFlag),
    List.Pairwise (fun a b => b.id < a.id) msgs →
    (∀ rec ∈ coll, ∀ m' ∈ msgs, m'.id < rec.message_id) →
    (∀ lf, l₀ = some lf → ∀ rec ∈ coll, lf.id ≤ rec.message_id) →
    ∀ lf, (scanBatch cfg msgs coll ef l₀).last = some lf →
      ∀ rec ∈ (scanBatch cfg msgs coll ef l₀).collected,
        lf.id ≤ rec.message_id := by
  intro msgs
  induction msgs with
  | nil =>
    intro coll ef l₀ _ _ hl₀ lf hlf rec hrec
    simp only [scanBatch_nil] at hlf hrec
    exact hl₀ lf hlf rec hrec
  | cons m rest ih =>
    intro coll ef l₀ hp hsep hl₀ lf hlf rec hrec
    have hrest : ∀ x ∈ rest, x.id < m.id :=
      fun x hx => (List.pairwise_cons.mp hp).1 x hx
    have hp' : List.Pairwise (fun a b => b.id < a.id) rest :=
      (List.pairwise_cons.mp hp).2
    have hmm : m ∈ m :: rest := List.mem_cons_self m rest
    by_cases h1 : strContains m.text cfg.search_term = true
    · cases h2 : extract_url m cfg.channel_name with
      | none =>
        rw [scanBatch_cons_nourl cfg m rest coll ef l₀ h1 h2] at hlf hrec
        refine ih coll ef (some (MsgFlag.fromMessage m)) hp'
          (fun r hr x hx => hsep r hr x (List.mem_cons_of_mem m hx))
          ?_ lf hlf rec hrec
        intro lf' hlf' r hr
        cases hlf'
        exact le_of_lt (hsep r hr m hmm)
      | some url =>
        by_cases h3 : url.isEmpty = true
        · have hu : url = "" := (String.isEmpty_iff url).mp h3
          subst hu
          rw [scanBatch_cons_emptyurl cfg m rest coll ef l₀ h1 h2] at hlf hrec
          refine ih coll ef (some (MsgFlag.fromMessage m)) hp'
            (fun r hr x hx => hsep r hr x (List.mem_cons_of_mem m hx))
            ?_ lf hlf rec hrec
          intro lf' hlf' r hr
          cases hlf'
          exact le_of_lt (hsep r hr m hmm)
        · rw [scanBatch_cons_collect cfg m rest coll ef l₀ url h1 h2
            (by simpa using h3)] at hlf hrec
          by_cases h4 : cfg.max_records
              ≤ (coll ++ [CollectedRecord.mk url m.date m.id]).length
          · rw [if_pos h4] at hlf hrec
            cases hlf
            rcases List.mem_append.mp hrec with h | h
            · exact le_of_lt (hsep rec h m hmm)
            · rw [List.mem_singleton] at h
              subst h
              exact le_refl _
          · rw [if_neg h4] at hlf hrec
            refine ih (coll ++ [CollectedRecord.mk url m.date m.id])
              (flag_to_dict (some (MsgFlag.fromMessage m)))
              (some (MsgFlag.fromMessage m)) hp' ?_ ?_ lf hlf rec hrec
            · intro r hr x hx
              rcases List.mem_append.mp hr with h | h
              · exact hsep r h x (List.mem_cons_of_mem m hx)
              · rw [List.mem_singleton] at h
                subst h
                exact hrest x hx
            · intro lf' hlf' r hr
              cases hlf'
              rcases List.mem_append.mp hr with h | h
              · exact le_of_lt (hsep r h m hmm)
              · rw [List.mem_singleton] at h
                subst h
                exact le_refl _
    · rw [scanBatch_cons_nomatch cfg m rest coll ef l₀ (by simpa using h1)]
        at hlf hrec
      refine ih coll ef (some (MsgFlag.fromMessage m)) hp'
        (fun r hr x hx => hsep r hr x (List.mem_cons_of_mem m hx))
        ?_ lf hlf rec hrec
      intro lf' hlf' r hr
      cases hlf'
      exact le_of_lt (hsep r hr m hmm)

theorem scanBatch_pairwise (cfg : RunConfig) :
    ∀ (msgs : List Message) (coll : List CollectedRecord)
      (ef : Option FlagDict) (l₀ : Option MsgFlag),
    List.Pairwise (fun a b => b.id < a.id) msgs →
    (∀ rec ∈ coll, ∀ m' ∈ msgs, m'.id < rec.message_id) →
    List.Pairwise (fun a b => b < a) (coll.map (fun r => r.message_id)) →
    List.Pairwise (fun a b => b < a)
      ((scanBatch cfg msgs coll ef l₀).collected.map
        (fun r => r.message_id)) := by
  intro msgs
  induction msgs with
  | nil =>
    intro coll ef l₀ _ _ hchain
    simpa [scanBatch_nil] using hchain
  | cons m rest ih =>
    intro coll ef l₀ hp hsep hchain
    have hrest : ∀ x ∈ rest, x.id < m.id :=
      fun x hx => (List.pairwise_cons.mp hp).1 x hx
    have hp' : List.Pairwise (fun a b => b.id < a.id) rest :=
      (List.pairwise_cons.mp hp).2
    have hmm : m ∈ m :: rest := List.mem_cons_self m rest
    have hsep' : ∀ rec ∈ coll, ∀ m' ∈ rest, m'.id < rec.message_id :=
      fun r hr x hx => hsep r hr x (List.mem_cons_of_mem m hx)
    by_cases h1 : strContains m.text cfg.search_term = true
    · cases h2 : extract_url m cfg.channel_name with
      | none =>
        rw [scanBatch_cons_nourl cfg m rest coll ef l₀ h1 h2]
        exact ih coll ef (some (MsgFlag.fromMessage m)) hp' hsep' hchain
      | some url =>
        by_cases h3 : url.isEmpty = true
        · have hu : url = "" := (String.isEmpty_iff url).mp h3
          subst hu
          rw [scanBatch_cons_emptyurl cfg m rest coll ef l₀ h1 h2]
          exact ih coll ef (some (MsgFlag.fromMessage m)) hp' hsep' hchain
        · have hchain' : List.Pairwise (fun a b => b < a)
              ((coll ++ [CollectedRecord.mk url m.date m.id]).map
                (fun r => r.message_id)) := by
            rw [List.map_append]
            refine List.pairwise_append.mpr ⟨hchain, by simp, ?_⟩
            intro a ha b hb
            simp only [List.map_cons, List.map_nil, List.mem_singleton] at hb
            subst hb
            obtain ⟨r, hr, hrid⟩ := List.mem_map.mp ha
            subst hrid
            exact hsep r hr m hmm
          rw [scanBatch_cons_collect cfg m rest coll ef l₀ url h1 h2
            (by simpa using h3)]
          by_cases h4 : cfg.max_records
              ≤ (coll ++ [CollectedRecord.mk url m.date m.id]).length
          · rw [if_pos h4]
            exact hchain'
          · rw [if_neg h4]
            refine ih (coll ++ [CollectedRecord.mk url m.date m.id])
              (flag_to_dict (some (MsgFlag.fromMessage m)))
              (some (MsgFlag.fromMessage m)) hp' ?_ hchain'
            intro r hr x hx
            rcases List.mem_append.mp hr with h | h
            · exact hsep' r h x hx
            · rw [List.mem_singleton] at h
              subst h
              exact hrest x hx
    · rw [scanBatch_cons_nomatch cfg m rest coll ef l₀ (by simpa using h1)]
      exact ih coll ef (some (MsgFlag.fromMessage m)) hp' hsep' hchain

theorem scanBatch_cap (cfg : RunConfig) :
    ∀ (msgs : List Message) (coll : List CollectedRecord)
      (ef : Option FlagDict) (l₀ : Option MsgFlag),
    coll.length < cfg.max_records →
    (scanBatch cfg msgs coll ef l₀).collected.length ≤ cfg.max_records ∧
    (∀ t, msgs = (scanBatch cfg msgs coll ef l₀).scanned ++ t → t ≠ [] →
      (scanBatch cfg msgs coll ef l₀).collected.length = cfg.max_records ∧
      ∃ pre mL, (scanBatch cfg msgs coll ef l₀).scanned = pre ++ [mL] ∧
        (scanBatch cfg pre coll ef l₀).collected.length < cfg.max_records) := by
  intro msgs
  induction msgs with
  | nil =>
    intro coll ef l₀ hlt
    refine ⟨le_of_lt (by simpa [scanBatch_nil] using hlt), ?_⟩
    intro t ht htne
    simp only [scanBatch_nil, List.nil_append] at ht
    exact absurd ht.symm htne
  | cons m rest ih =>
    intro coll ef l₀ hlt
    by_cases h1 : strContains m.text cfg.search_term = true
    · cases h2 : extract_url m cfg.channel_name with
      | none =>
        rw [scanBatch_cons_nourl cfg m rest coll ef l₀ h1 h2]
        refine ⟨(ih coll ef (some (MsgFlag.fromMessage m)) hlt).1, ?_⟩
        intro t ht htne
        simp only [List.cons_append, List.cons.injEq, true_and] at ht
        obtain ⟨hmax, pre', mL, hsc, hpre⟩ :=
          (ih coll ef (some (MsgFlag.fromMessage m)) hlt).2 t ht htne
        refine ⟨hmax, m :: pre', mL, by simp [hsc], ?_⟩
        rw [scanBatch_cons_nourl cfg m pre' coll ef l₀ h1 h2]
        exact hpre
      | some url =>
        by_cases h3 : url.isEmpty = true
        · have hu : url = "" := (String.isEmpty_iff url).mp h3
          subst hu
          rw [scanBatch_cons_emptyurl cfg m rest coll ef l₀ h1 h2]
          refine ⟨(ih coll ef (some (MsgFlag.fromMessage m)) hlt).1, ?_⟩
          intro t ht htne
          simp only [List.cons_append, List.cons.injEq, true_and] at ht
          obtain ⟨hmax, pre', mL, hsc, hpre⟩ :=
            (ih coll ef (some (MsgFlag.fromMessage m)) hlt).2 t ht htne
          refine ⟨hmax, m :: pre', mL, by simp [hsc], ?_⟩
          rw [scanBatch_cons_emptyurl cfg m pre' coll ef l₀ h1 h2]
          exact hpre
        · rw [scanBatch_cons_collect cfg m rest coll ef l₀ url h1 h2
            (by simpa using h3)]
          by_cases h4 : cfg.max_records
              ≤ (coll ++ [CollectedRecord.mk url m.date m.id]).length
          · rw [if_pos h4]
            have h4c := h4
            simp only [List.length_append, List.length_singleton] at h4c
            have hlen : (coll ++ [CollectedRecord.mk url m.date m.id]).length
                = cfg.max_records := by
              simp only [List.length_append, List.length_singleton]
              omega
            refine ⟨le_of_eq hlen, ?_⟩
            intro t ht htne
            refine ⟨hlen, [], m, by simp, ?_⟩
            simpa [scanBatch_nil] using hlt
          · rw [if_neg h4]
            have h4c := h4
            simp only [List.length_append, List.length_singleton] at h4c
            have hlt' : (coll ++ [CollectedRecord.mk url m.date m.id]).length
                < cfg.max_records := by
              simp only [List.length_append, List.length_singleton]
              omega
            refine ⟨(ih (coll ++ [CollectedRecord.mk url m.date m.id])
              (flag_to_dict (some (MsgFlag.fromMessage m)))
              (some (MsgFlag.fromMessage m)) hlt').1, ?_⟩
            intro t ht htne
            simp only [List.cons_append, List.cons.injEq, true_and] at ht
            obtain ⟨hmax, pre', mL, hsc, hpre⟩ :=
              (ih (coll ++ [CollectedRecord.mk url m.date m.id])
                (flag_to_dict (some (MsgFlag.fromMessage m)))
                (some (MsgFlag.fromMessage m)) hlt').2 t ht htne
            refine ⟨hmax, m :: pre', mL, by simp [hsc], ?_⟩
            rw [scanBatch_cons_collect cfg m pre' coll ef l₀ url h1 h2
              (by simpa using h3), if_neg h4]
            exact hpre
    · rw [scanBatch_cons_nomatch cfg m rest coll ef l₀ (by simpa using h1)]
      refine ⟨(ih coll ef (some (MsgFlag.fromMessage m)) hlt).1, ?_⟩
      intro t ht htne
      simp only [List.cons_append, List.cons.injEq, true_and] at ht
      obtain ⟨hmax, pre', mL, hsc, hpre⟩ :=
        (ih coll ef (some (MsgFlag.fromMessage m)) hlt).2 t ht htne
      refine ⟨hmax, m :: pre', mL, by simp [hsc], ?_⟩
      rw [scanBatch_cons_nomatch cfg m pre' coll ef l₀ (by simpa using h1)]
      exact hpre

/-! Section: the loop invariant -/

@[simp] theorem scansIn_map_scan (l : List Message) :
    scansIn (l.map RunEvent.scan) = l := by
  induction l with
  | nil => rfl
  | cons a t ih => simp [ih]

@[simp] theorem savesOf_map_scan (l : List Message) :
    savesOf (l.map RunEvent.scan) = [] := by
  induction l with
  | nil => rfl
  | cons a t ih => simp [ih]

theorem middleOkAux_map_scan (l : List Message) (seen : List Message) :
    middleOkAux (l.map RunEvent.scan) seen = true := by
  induction l generalizing seen with
  | nil => rfl
  | cons a t ih => simpa [middleOkAux] using ih (seen ++ [a])

/-- Invariant of the main loop, parameterized by the run configuration.
`savesNE` holds because the run-start checkpoint is always written before
the loop begins. -/
structure CoreInv (cfg : RunConfig) (s : LoopSt) : Prop where
  chainColl : List.Pairwise (fun a b => b < a)
    (s.collected.map (fun r => r.message_id))
  collLe : s.collected.length ≤ cfg.max_records
  stFile : s.st = s.file
  savesNE : savesOf s.events ≠ []
  cursorNone : s.cursor = none → s.collected = [] ∧ scansIn s.events = []
  cursorLeColl : ∀ c, s.cursor = some c →
    ∀ rec ∈ s.collected, c.id ≤ rec.message_id
  cursorLeScans : ∀ c, s.cursor = some c →
    ∀ m ∈ scansIn s.events, c.id ≤ m.id
  fileMidLeScans : ∀ f, dict_to_flag s.file.middle_flag = some f →
    ∀ m ∈ scansIn s.events, f.id ≤ m.id
  fileMidLeColl : ∀ f, dict_to_flag s.file.middle_flag = some f →
    ∀ rec ∈ s.collected, f.id ≤ rec.message_id
  midOk : middleOk s.events = true
  loopSavesChain : List.Chain' (fun a b => middleStepOk a b = true)
    ((savesOf s.events).drop 1)
  lastLoopSave : ∀ stL, ((savesOf s.events).drop 1).getLast? = some stL →
    stL.middle_flag = s.file.middle_flag ∧
    ∃ fL, dict_to_flag stL.middle_flag = some fL ∧
    ∃ c, s.cursor = some c ∧ c.id ≤ fL.id

theorem CoreInv_fail (cfg : RunConfig) (δ : ℚ) (s : LoopSt) (h : CoreInv cfg s) :
    CoreInv cfg (failStep δ s) := by
  unfold failStep
  have hscans : scansIn (s.events ++ [RunEvent.sleep δ]) = scansIn s.events := by
    rw [scansIn_append]; simp
  have hsaves : savesOf (s.events ++ [RunEvent.sleep δ]) = savesOf s.events := by
    rw [savesOf_append]; simp
  have hmid : middleOk (s.events ++ [RunEvent.sleep δ]) = true := by
    have h1 : middleOkAux s.events [] = true := h.midOk
    unfold middleOk
    rw [middleOkAux_append, h1]
    rfl
  cases hmf : dict_to_flag s.file.middle_flag with
  | some f =>
    refine ⟨h.chainColl, h.collLe, rfl, by simpa [hsaves] using h.savesNE,
      ?_, ?_, ?_, ?_, ?_, ?_, ?_, ?_⟩
    · intro hc; exact absurd hc (by simp)
    · intro c hc rec hrec
      cases hc
      exact h.fileMidLeColl _ hmf rec hrec
    · intro c hc m hm
      cases hc
      rw [hscans] at hm
      exact h.fileMidLeScans _ hmf m hm
    · intro f' hf' m hm
      rw [hscans] at hm
      exact h.fileMidLeScans f' hf' m hm
    · exact fun f' hf' rec hrec => h.fileMidLeColl f' hf' rec hrec
    · exact hmid
    · simpa [hsaves] using h.loopSavesChain
    · intro stL hstL
      rw [hsaves] at hstL
      obtain ⟨heq, fL, hfL, c, hc, hle⟩ := h.lastLoopSave stL hstL
      refine ⟨heq, fL, hfL, fL, ?_, le_refl _⟩
      rw [heq] at hfL
      rw [hmf] at hfL
      cases hfL
      rfl
  | none =>
    refine ⟨h.chainColl, h.collLe, rfl, by simpa [hsaves] using h.savesNE,
      ?_, ?_, ?_, ?_, ?_, ?_, ?_, ?_⟩
    · intro hc
      obtain ⟨h1, h2⟩ := h.cursorNone hc
      exact ⟨h1, by rwa [hscans]⟩
    · exact fun c hc rec hrec => h.cursorLeColl c hc rec hrec
    · intro c hc m hm
      rw [hscans] at hm
      exact h.cursorLeScans c hc m hm
    · intro f' hf' m hm
      rw [hscans] at hm
      exact h.fileMidLeScans f' hf' m hm
    · exact fun f' hf' rec hrec => h.fileMidLeColl f' hf' rec hrec
    · exact hmid
    · simpa [hsaves] using h.loopSavesChain
    · intro stL hstL
      rw [hsaves] at hstL
      obtain ⟨heq, fL, hfL, c, hc, hle⟩ := h.lastLoopSave stL hstL
      rw [heq, hmf] at hfL
      exact absurd hfL (by simp)

theorem CoreInv_inert (cfg : RunConfig) (δ : ℚ) (s : LoopSt)
    (h : CoreInv cfg s) :
    CoreInv cfg
      { s with events := s.events ++ [RunEvent.sleep δ, RunEvent.reconnect] } := by
  have hscans : scansIn (s.events ++ [RunEvent.sleep δ, RunEvent.reconnect])
      = scansIn s.events := by
    rw [scansIn_append]; simp
  have hsaves : savesOf (s.events ++ [RunEvent.sleep δ, RunEvent.reconnect])
      = savesOf s.events := by
    rw [savesOf_append]; simp
  have hmid : middleOk (s.events ++ [RunEvent.sleep δ, RunEvent.reconnect])
      = true := by
    have h1 : middleOkAux s.events [] = true := h.midOk
    unfold middleOk
    rw [middleOkAux_append, h1]
    rfl
  refine ⟨h.chainColl, h.collLe, h.stFile, by simpa [hsaves] using h.savesNE,
    ?_, h.cursorLeColl, ?_, ?_, h.fileMidLeColl, hmid, ?_, ?_⟩
  · intro hc
    obtain ⟨h1, h2⟩ := h.cursorNone hc
    exact ⟨h1, by rwa [hscans]⟩
  · intro c hc m hm
    rw [hscans] at hm
    exact h.cursorLeScans c hc m hm
  · intro f hf m hm
    rw [hscans] at hm
    exact h.fileMidLeScans f hf m hm
  · simpa [hsaves] using h.loopSavesChain
  · intro stL hstL
    rw [hsaves] at hstL
    exact h.lastLoopSave stL hstL

theorem CoreInv_batch (cfg : RunConfig) (δ : ℚ) (msgs : List Message)
    (s : LoopSt) (h : CoreInv cfg s) (hne : msgs ≠ [])
    (hguard : s.collected.length < cfg.max_records)
    (hgb : GoodBatch s.cursor msgs) :
    CoreInv cfg (batchStep cfg δ msgs s) := by
  haveI : IsTrans Message (fun a b => b.id < a.id) :=
    ⟨fun _ _ _ hab hbc => lt_trans hbc hab⟩
  have hp : List.Pairwise (fun a b => b.id < a.id) msgs :=
    List.chain'_iff_pairwise.mp hgb.1
  have hsep : ∀ rec ∈ s.collected, ∀ m' ∈ msgs, m'.id < rec.message_id := by
    intro rec hrec m' hm'
    cases hcur : s.cursor with
    | none =>
      rw [(h.cursorNone hcur).1] at hrec
      simp at hrec
    | some c =>
      exact lt_of_lt_of_le (hgb.2 c hcur m' hm')
        (h.cursorLeColl c hcur rec hrec)
  obtain ⟨mL, hL1, hL2⟩ :=
    scanBatch_last cfg msgs s.collected s.st.end_flag none hne
  have hmLscanned :
      mL ∈ (scanBatch cfg msgs s.collected s.st.end_flag none).scanned :=
    List.mem_of_getLast?_eq_some hL1
  obtain ⟨t, ht⟩ :=
    scanBatch_scanned_isPre cfg msgs s.collected s.st.end_flag none
  have hmLmsgs : mL ∈ msgs := by
    rw [ht]; exact List.mem_append_left t hmLscanned
  have hlfScanOld : ∀ m ∈ scansIn s.events, mL.id ≤ m.id := by
    intro m hm
    cases hcur : s.cursor with
    | none =>
      rw [(h.cursorNone hcur).2] at hm
      simp at hm
    | some c =>
      exact le_trans (le_of_lt (hgb.2 c hcur mL hmLmsgs))
        (h.cursorLeScans c hcur m hm)
  have hlfScanNew :
      ∀ m ∈ (scanBatch cfg msgs s.collected s.st.end_flag none).scanned,
        mL.id ≤ m.id :=
    fun m hm => scanBatch_last_le_scanned cfg msgs s.collected s.st.end_flag
      none hp (MsgFlag.fromMessage mL) hL2 m hm
  have hlfColl :
      ∀ rec ∈ (scanBatch cfg msgs s.collected s.st.end_flag none).collected,
        mL.id ≤ rec.message_id :=
    fun rec hrec => scanBatch_last_le_collected cfg msgs s.collected
      s.st.end_flag none hp hsep (fun lf hlf => by cases hlf)
      (MsgFlag.fromMessage mL) hL2 rec hrec
  have hchainNew := scanBatch_pairwise cfg msgs s.collected s.st.end_flag
    none hp hsep h.chainColl
  have hcollLe :=
    (scanBatch_cap cfg msgs s.collected s.st.end_flag none hguard).1
  -- the state written by the post-batch checkpoint
  have hs2 : CoreInv cfg
      { s with
        collected := (scanBatch cfg msgs s.collected s.st.end_flag none).collected
        cursor := some (MsgFlag.fromMessage mL)
        st := { s.st with
                end_flag := (scanBatch cfg msgs s.collected s.st.end_flag none).end_flag
                middle_flag := flag_to_dict (some (MsgFlag.fromMessage mL)) }
        file := { s.st with
                end_flag := (scanBatch cfg msgs s.collected s.st.end_flag none).end_flag
                middle_flag := flag_to_dict (some (MsgFlag.fromMessage mL)) }
        events := (s.events
          ++ (scanBatch cfg msgs s.collected s.st.end_flag none).scanned.map
              RunEvent.scan)
          ++ [RunEvent.save
              { s.st with
                end_flag := (scanBatch cfg msgs s.collected s.st.end_flag none).end_flag
                middle_flag := flag_to_dict (some (MsgFlag.fromMessage mL)) }] } := by
    set r := scanBatch cfg msgs s.collected s.st.end_flag none with hrdef
    set st2 : HarvestState :=
      { s.st with
        end_flag := r.end_flag
        middle_flag := flag_to_dict (some (MsgFlag.fromMessage mL)) } with hst2
    have hdict2 : dict_to_flag st2.middle_flag = some (MsgFlag.fromMessage mL) := rfl
    have hscans2 : scansIn ((s.events ++ r.scanned.map RunEvent.scan)
        ++ [RunEvent.save st2]) = scansIn s.events ++ r.scanned := by
      rw [scansIn_append, scansIn_append, scansIn_map_scan]
      simp
    have hsaves2 : savesOf ((s.events ++ r.scanned.map RunEvent.scan)
        ++ [RunEvent.save st2]) = savesOf s.events ++ [st2] := by
      rw [savesOf_append, savesOf_append, savesOf_map_scan]
      simp
    have hdrop : (savesOf s.events ++ [st2]).drop 1
        = (savesOf s.events).drop 1 ++ [st2] :=
      List.drop_append_of_le_length (List.length_pos.mpr h.savesNE)
    refine ⟨hchainNew, hcollLe, rfl, ?_, ?_, ?_, ?_, ?_, ?_, ?_, ?_, ?_⟩
    · rw [hsaves2]; simp
    · intro hc; exact absurd hc (by simp)
    · intro c hc rec hrec
      cases hc
      exact hlfColl rec hrec
    · intro c hc m hm
      cases hc
      rw [hscans2] at hm
      rcases List.mem_append.mp hm with hm | hm
      · exact hlfScanOld m hm
      · exact hlfScanNew m hm
    · intro f hf m hm
      rw [hdict2] at hf
      cases hf
      rw [hscans2] at hm
      rcases List.mem_append.mp hm with hm | hm
      · exact hlfScanOld m hm
      · exact hlfScanNew m hm
    · intro f hf rec hrec
      rw [hdict2] at hf
      cases hf
      exact hlfColl rec hrec
    · have h1 : middleOkAux s.events [] = true := h.midOk
      unfold middleOk
      rw [middleOkAux_append, middleOkAux_append, h1, middleOkAux_map_scan,
        scansIn_append, scansIn_map_scan]
      simp only [Bool.true_and, List.nil_append, middleOkAux, hdict2,
        Bool.and_true]
      rw [List.all_eq_true]
      intro m hm
      rcases List.mem_append.mp hm with hm | hm
      · simpa using hlfScanOld m hm
      · simpa using hlfScanNew m hm
    · rw [hsaves2, hdrop]
      rw [List.chain'_append]
      refine ⟨h.loopSavesChain, List.chain'_singleton st2, ?_⟩
      intro x hx y hy
      simp only [List.head?_cons, Option.mem_def, Option.some.injEq] at hy
      subst hy
      obtain ⟨heq, fL, hfL, c, hc, hle⟩ :=
        h.lastLoopSave x (Option.mem_def.mp hx)
      unfold middleStepOk
      rw [hfL, hdict2]
      simp only [decide_eq_true_eq]
      exact le_of_lt (lt_of_lt_of_le (hgb.2 c hc mL hmLmsgs) hle)
    · intro stL hstL
      rw [hsaves2, hdrop, List.getLast?_concat] at hstL
      cases hstL
      exact ⟨rfl, MsgFlag.fromMessage mL, hdict2,
        MsgFlag.fromMessage mL, rfl, le_refl _⟩
  -- now reduce `batchStep` to the state above and transfer
  unfold batchStep
  simp only [hL2]
  by_cases hif : cfg.batch_size ≤ msgs.length ∧
      (scanBatch cfg msgs s.collected s.st.end_flag none).collected.length
        < cfg.max_records
  · rw [if_pos hif]
    exact CoreInv_inert cfg δ _ hs2
  · rw [if_neg hif]
    exact hs2

theorem runLoop_core (cfg : RunConfig) (δ : ℚ)
    (fetch : Nat → Option MsgFlag → Option (List Message))
    (hf : GoodFetcher fetch) :
    ∀ fuel k s, CoreInv cfg s →
      CoreInv cfg (runLoop cfg δ fetch fuel k s).1 := by
  intro fuel
  induction fuel with
  | zero => intro k s hs; exact hs
  | succ fuel ih =>
    intro k s hs
    rw [runLoop]
    by_cases hguard : cfg.max_records ≤ s.collected.length
    · rw [if_pos hguard]; exact hs
    · rw [if_neg hguard]
      cases hfetch : fetch k s.cursor with
      | none => exact ih (k + 1) _ (CoreInv_fail cfg δ s hs)
      | some msgs =>
        cases msgs with
        | nil => exact hs
        | cons m ms =>
          exact ih (k + 1) _ (CoreInv_batch cfg δ (m :: ms) s hs (by simp)
            (lt_of_not_le hguard) (hf k s.cursor (m :: ms) hfetch))

theorem CoreInv_init (cfg : RunConfig) (latest_flag : Option MsgFlag)
    (st0 : HarvestState) (startedAt : String) :
    CoreInv cfg (initLoopSt cfg latest_flag st0 startedAt) := by
  refine ⟨List.Pairwise.nil, by simp [initLoopSt], rfl, by simp [initLoopSt],
    ?_, ?_, ?_, ?_, ?_, ?_, ?_, ?_⟩
  · exact fun _ => ⟨rfl, rfl⟩
  · intro c _ rec hrec
    simp [initLoopSt] at hrec
  · intro c _ m hm
    simp [initLoopSt, scansIn] at hm
  · intro f _ m hm
    simp [initLoopSt, scansIn] at hm
  · intro f _ rec hrec
    simp [initLoopSt] at hrec
  · show middleOk [RunEvent.save (runStartState cfg latest_flag st0 startedAt)]
      = true
    unfold middleOk middleOkAux
    cases dict_to_flag (runStartState cfg latest_flag st0 startedAt).middle_flag
      <;> rfl
  · simp [initLoopSt, savesOf]
  · intro stL hstL
    simp [initLoopSt, savesOf] at hstL

/-- Invariant of the main loop tying the run to the `end_flag` the loaded
state held at run start (`D0`): everything collected is strictly older than
that flag, the cursor and the persisted `middle_flag` never pass it the
wrong way, and the in-memory `end_flag` always equals either `D0` (nothing
collected yet) or the flag of the most recently collected record. -/
structure EndInv (D0 : Option FlagDict) (s : LoopSt) : Prop where
  endLt : ∀ g, dict_to_flag D0 = some g →
    ∀ rec ∈ s.collected, rec.message_id < g.id
  cursorLeEnd : ∀ g, dict_to_flag D0 = some g →
    ∀ c, s.cursor = some c → c.id ≤ g.id
  fileMidLeEnd : ∀ g, dict_to_flag D0 = some g →
    ∀ f, dict_to_flag s.file.middle_flag = some f → f.id ≤ g.id
  cursorSome : ∀ g, dict_to_flag D0 = some g → s.cursor ≠ none
  endTrackNil : s.collected = [] → s.st.end_flag = D0
  endTrackLast : ∀ rec, s.collected.getLast? = some rec →
    s.st.end_flag = some (FlagDict.mk rec.message_id rec.date)

theorem EndInv_fail (δ : ℚ) (D0 : Option FlagDict) (s : LoopSt)
    (hc : s.st = s.file) (h : EndInv D0 s) : EndInv D0 (failStep δ s) := by
  unfold failStep
  cases hmf : dict_to_flag s.file.middle_flag with
  | some f =>
    refine ⟨h.endLt, ?_, h.fileMidLeEnd, ?_, ?_, ?_⟩
    · intro g hg c hcr
      cases hcr
      exact h.fileMidLeEnd g hg _ hmf
    · intro g hg hcr
      exact absurd hcr (by simp)
    · intro hcol
      show s.file.end_flag = D0
      rw [← hc]
      exact h.endTrackNil hcol
    · intro rec hrec
      show s.file.end_flag = some (FlagDict.mk rec.message_id rec.date)
      rw [← hc]
      exact h.endTrackLast rec hrec
  | none =>
    refine ⟨h.endLt, h.cursorLeEnd, h.fileMidLeEnd, h.cursorSome, ?_, ?_⟩
    · intro hcol
      show s.file.end_flag = D0
      rw [← hc]
      exact h.endTrackNil hcol
    · intro rec hrec
      show s.file.end_flag = some (FlagDict.mk rec.message_id rec.date)
      rw [← hc]
      exact h.endTrackLast rec hrec

theorem EndInv_events (D0 : Option FlagDict) (s : LoopSt)
    (ev : List RunEvent) (h : EndInv D0 s) :
    EndInv D0 { s with events := ev } :=
  ⟨h.endLt, h.cursorLeEnd, h.fileMidLeEnd, h.cursorSome, h.endTrackNil,
   h.endTrackLast⟩

theorem EndInv_batch (cfg : RunConfig) (δ : ℚ) (msgs : List Message)
    (D0 : Option FlagDict) (s : LoopSt)
    (h : EndInv D0 s) (hne : msgs ≠ [])
    (hgb : GoodBatch s.cursor msgs) :
    EndInv D0 (batchStep cfg δ msgs s) := by
  obtain ⟨mL, hL1, hL2⟩ :=
    scanBatch_last cfg msgs s.collected s.st.end_flag none hne
  have hmLscanned :
      mL ∈ (scanBatch cfg msgs s.collected s.st.end_flag none).scanned :=
    List.mem_of_getLast?_eq_some hL1
  obtain ⟨t, ht⟩ :=
    scanBatch_scanned_isPre cfg msgs s.collected s.st.end_flag none
  have hmLmsgs : mL ∈ msgs := by
    rw [ht]; exact List.mem_append_left t hmLscanned
  obtain ⟨Δ, hΔ1, hΔ2, hΔ3, hΔ4⟩ :=
    scanBatch_delta cfg msgs s.collected s.st.end_flag none
  have hs2 : EndInv D0
      { s with
        collected := (scanBatch cfg msgs s.collected s.st.end_flag none).collected
        cursor := some (MsgFlag.fromMessage mL)
        st := { s.st with
                end_flag := (scanBatch cfg msgs s.collected s.st.end_flag none).end_flag
                middle_flag := flag_to_dict (some (MsgFlag.fromMessage mL)) }
        file := { s.st with
                end_flag := (scanBatch cfg msgs s.collected s.st.end_flag none).end_flag
                middle_flag := flag_to_dict (some (MsgFlag.fromMessage mL)) }
        events := (s.events
          ++ (scanBatch cfg msgs s.collected s.st.end_flag none).scanned.map
              RunEvent.scan)
          ++ [RunEvent.save
              { s.st with
                end_flag := (scanBatch cfg msgs s.collected s.st.end_flag none).end_flag
                middle_flag := flag_to_dict (some (MsgFlag.fromMessage mL)) }] } := by
    set r := scanBatch cfg msgs s.collected s.st.end_flag none with hrdef
    have hcur : ∀ g, dict_to_flag D0 = some g → ∃ c, s.cursor = some c ∧
        c.id ≤ g.id := by
      intro g hg
      cases hcs : s.cursor with
      | none => exact absurd hcs (h.cursorSome g hg)
      | some c => exact ⟨c, rfl, h.cursorLeEnd g hg c hcs⟩
    refine ⟨?_, ?_, ?_, ?_, ?_, ?_⟩
    · intro g hg rec hrec
      rw [hΔ1] at hrec
      rcases List.mem_append.mp hrec with hrec | hrec
      · exact h.endLt g hg rec hrec
      · obtain ⟨m, hm, hid, _, _, _⟩ := hΔ2 rec hrec
        obtain ⟨c, hcs, hcle⟩ := hcur g hg
        have hmm : m ∈ msgs := by
          rw [ht]; exact List.mem_append_left t hm
        rw [hid]
        exact lt_of_lt_of_le (hgb.2 c hcs m hmm) hcle
    · intro g hg c hcr
      cases hcr
      obtain ⟨c', hcs, hcle⟩ := hcur g hg
      exact le_of_lt (lt_of_lt_of_le (hgb.2 c' hcs mL hmLmsgs) hcle)
    · intro g hg f hf
      cases hf
      obtain ⟨c', hcs, hcle⟩ := hcur g hg
      exact le_of_lt (lt_of_lt_of_le (hgb.2 c' hcs mL hmLmsgs) hcle)
    · intro g hg hcr
      exact absurd hcr (by simp)
    · intro hcol
      rw [hΔ1] at hcol
      rcases List.append_eq_nil.mp hcol with ⟨hc1, hc2⟩
      show r.end_flag = D0
      rw [hΔ3 hc2]
      exact h.endTrackNil hc1
    · intro rec hrec
      rw [hΔ1] at hrec
      show r.end_flag = some (FlagDict.mk rec.message_id rec.date)
      cases hΔe : Δ with
      | nil =>
        subst hΔe
        rw [List.append_nil] at hrec
        rw [hΔ3 rfl]
        exact h.endTrackLast rec hrec
      | cons a l =>
        rw [hΔe] at hrec
        rw [List.getLast?_append_of_ne_nil _ (by simp)] at hrec
        rw [← hΔe] at hrec
        exact hΔ4 rec hrec
  unfold batchStep
  simp only [hL2]
  by_cases hif : cfg.batch_size ≤ msgs.length ∧
      (scanBatch cfg msgs s.collected s.st.end_flag none).collected.length
        < cfg.max_records
  · rw [if_pos hif]
    exact EndInv_events D0 _ _ hs2
  · rw [if_neg hif]
    exact hs2

theorem runLoop_end (cfg : RunConfig) (δ : ℚ)
    (fetch : Nat → Option MsgFlag → Option (List Message))
    (hf : GoodFetcher fetch) (D0 : Option FlagDict) :
    ∀ fuel k s, CoreInv cfg s → EndInv D0 s →
      EndInv D0 (runLoop cfg δ fetch fuel k s).1 := by
  intro fuel
  induction fuel with
  | zero => intro k s _ he; exact he
  | succ fuel ih =>
    intro k s hs he
    rw [runLoop]
    by_cases hguard : cfg.max_records ≤ s.collected.length
    · rw [if_pos hguard]; exact he
    · rw [if_neg hguard]
      cases hfetch : fetch k s.cursor with
      | none =>
        exact ih (k + 1) _ (CoreInv_fail cfg δ s hs)
          (EndInv_fail δ D0 s hs.stFile he)
      | some msgs =>
        cases msgs with
        | nil => exact he
        | cons m ms =>
          exact ih (k + 1) _
            (CoreInv_batch cfg δ (m :: ms) s hs (by simp)
              (lt_of_not_le hguard) (hf k s.cursor (m :: ms) hfetch))
            (EndInv_batch cfg δ (m :: ms) D0 s he (by simp)
              (hf k s.cursor (m :: ms) hfetch))

theorem EndInv_init (cfg : RunConfig) (latest_flag : Option MsgFlag)
    (st0 : HarvestState) (startedAt : String) (hwf : WFResume st0) :
    EndInv st0.end_flag (initLoopSt cfg latest_flag st0 startedAt) := by
  have hend : (runStartState cfg latest_flag st0 startedAt).end_flag
      = st0.end_flag := by
    unfold runStartState
    cases latest_flag <;> cases hsel : (selectStrategy st0).2 <;> simp [hsel]
  have hcursral : ∀ c, (selectStrategy st0).2 = some c →
      ∀ g, dict_to_flag st0.end_flag = some g → c.id ≤ g.id := by
    intro c hc g hg
    unfold selectStrategy at hc
    by_cases hb : (st0.status == "in_progress")
        && (dict_to_flag st0.middle_flag).isSome
    · rw [if_pos hb] at hc
      simp only at hc
      have hst : st0.status = "in_progress" := by
        have := (Bool.and_eq_true _ _).mp hb
        exact beq_iff_eq.mp this.1
      exact hwf c g hst hc hg
    · rw [if_neg hb] at hc
      rw [hg] at hc
      simp only [Option.isSome_some, if_true] at hc
      cases hc
      exact le_refl _
  have hmidstart : ∀ f, dict_to_flag
        (runStartState cfg latest_flag st0 startedAt).middle_flag = some f →
      ∀ g, dict_to_flag st0.end_flag = some g →
      (selectStrategy st0).2 = none →
      False := by
    intro f hf g hg hsel
    unfold selectStrategy at hsel
    by_cases hb : (st0.status == "in_progress")
        && (dict_to_flag st0.middle_flag).isSome
    · rw [if_pos hb] at hsel
      simp only at hsel
      have := (Bool.and_eq_true _ _).mp hb
      rw [Option.isSome_iff_exists] at this
      obtain ⟨x, hx⟩ := this.2
      rw [hx] at hsel
      exact Option.some_ne_none x hsel
    · rw [if_neg hb] at hsel
      rw [hg] at hsel
      simp at hsel
  refine ⟨?_, ?_, ?_, ?_, ?_, ?_⟩
  · intro g _ rec hrec
    simp [initLoopSt] at hrec
  · intro g hg c hc
    exact hcursral c hc g hg
  · intro g hg f hf
    show _ ≤ _
    unfold initLoopSt at hf
    simp only at hf
    cases hsel : (selectStrategy st0).2 with
    | none => exact absurd hsel (fun hx => hmidstart f hf g hg hx)
    | some c =>
      have hmid : (runStartState cfg latest_flag st0 startedAt).middle_flag
          = flag_to_dict (some c) := by
        unfold runStartState
        cases latest_flag <;> simp [hsel]
      rw [hmid] at hf
      cases hf
      exact hcursral c hsel _ hg
  · intro g hg
    show (selectStrategy st0).2 ≠ none
    intro hsel
    unfold selectStrategy at hsel
    by_cases hb : (st0.status == "in_progress")
        && (dict_to_flag st0.middle_flag).isSome
    · rw [if_pos hb] at hsel
      simp only at hsel
      have := (Bool.and_eq_true _ _).mp hb
      rw [Option.isSome_iff_exists] at this
      obtain ⟨x, hx⟩ := this.2
      rw [hx] at hsel
      exact Option.some_ne_none x hsel
    · rw [if_neg hb] at hsel
      rw [hg] at hsel
      simp at hsel
  · intro _
    show (runStartState cfg latest_flag st0 startedAt).end_flag = st0.end_flag
    exact hend
  · intro rec hrec
    simp [initLoopSt] at hrec

/-! Section: the claims -/

/-- C9: cursor serialization round-trips — `dict_to_flag (flag_to_dict f)`
returns `f` for every `MsgFlag` `f`, and both functions map `None` to
`None`, so persisting and reloading a cursor through the state file loses
no information. -/
theorem c9_flag_roundtrip (f : MsgFlag) :
    dict_to_flag (flag_to_dict (some f)) = some f ∧
    flag_to_dict none = none ∧
    dict_to_flag none = none := by
  refine ⟨?_, rfl, rfl⟩
  cases f
  rfl

/-- C6: every checkpoint save writes the full serialized state to the
temporary file and then atomically replaces the state file, refreshing
`updated_at`; at every crash point of the save the state file holds either
its previous content or the complete new serialization (never a prefix);
and saving the same state twice in a row persists an identical state apart
from `updated_at` (identical bytes when the clock reads the same), leaving
no temp file behind. -/
theorem c6_atomic_idempotent_save :
    (∀ (encode : HarvestState → List Char) (fs : FSModel) (st : HarvestState)
        (now : String) (cp : SaveCrash),
      (saveCrashed encode fs st now cp).main = fs.main ∨
      (saveCrashed encode fs st now cp).main
        = some (encode { st with updated_at := now })) ∧
    (∀ (encode : HarvestState → List Char) (fs : FSModel) (st : HarvestState)
        (t1 t2 : String),
      (StateStore.save encode fs st t1).2.updated_at = t1 ∧
      (StateStore.save encode
          (StateStore.save encode fs st t1).1
          (StateStore.save encode fs st t1).2 t2).2.updated_at = t2 ∧
      (StateStore.save encode
          (StateStore.save encode fs st t1).1
          (StateStore.save encode fs st t1).2 t2).1.main
        = some (encode { st with updated_at := t2 }) ∧
      (StateStore.save encode
          (StateStore.save encode fs st t1).1
          (StateStore.save encode fs st t1).2 t2).1
        = (StateStore.save encode fs st t2).1 ∧
      eraseUpdatedAt (StateStore.save encode fs st t1).2
        = eraseUpdatedAt (StateStore.save encode
            (StateStore.save encode fs st t1).1
            (StateStore.save encode fs st t1).2 t2).2 ∧
      (StateStore.save encode fs st t1).1.tmp = none ∧
      (StateStore.save encode
          (StateStore.save encode fs st t1).1
          (StateStore.save encode fs st t1).2 t2).1.tmp = none) := by
  constructor
  · intro encode fs st now cp
    cases cp with
    | beforeWrite => exact Or.inl rfl
    | duringTmpWrite k => exact Or.inl rfl
    | afterTmpWrite => exact Or.inl rfl
    | afterReplace => exact Or.inr rfl
  · intro encode fs st t1 t2
    exact ⟨rfl, rfl, rfl, rfl, rfl, rfl, rfl⟩

/-- Modelled from the spec: the resume-strategy table of spec section 4.4 —
`resume_unfinished` when `status == in_progress` and `middle_flag` is
present, `continue_archive` when `status == idle` and `end_flag` is
present, and `first_run` with a null cursor otherwise. -/
def selectStrategySpec (st : HarvestState) : String × Option MsgFlag :=
  if st.status = "in_progress" ∧ (dict_to_flag st.middle_flag).isSome then
    ("resume_unfinished", dict_to_flag st.middle_flag)
  else if st.status = "idle" ∧ (dict_to_flag st.end_flag).isSome then
    ("continue_archive", dict_to_flag st.end_flag)
  else
    ("first_run", none)

/-- A state as a crashed run that never collected anything leaves it:
`in_progress`, no `middle_flag`, but an `end_flag` from an earlier run. -/
def c1State : HarvestState :=
  { freshState "t0" with
    status := "in_progress"
    end_flag := some (FlagDict.mk 1200 "d1200") }

/-- C1 counterexample: on `status == in_progress` with `middle_flag` absent
and `end_flag` present, the spec table (and the claim) demand `first_run`
with a null cursor, but the code's `elif prev_end is not None:` does not
test the status and selects `continue_archive` from the `end_flag` — also
visible in the full run's persisted `run_reason`. -/
theorem c1_counterexample :
    selectStrategySpec c1State = ("first_run", none) ∧
    selectStrategy c1State
      = ("continue_archive", some (MsgFlag.mk 1200 "d1200")) ∧
    (collect_links_with_flags (RunConfig.mk "chan" "TinyGS" 3 100) 2 none
        c1State "tS" "tF" (fun _ _ => some []) 3).run_reason
      = "continue_archive" := by
  exact ⟨by decide, rfl, rfl⟩

/-- C1 as amended: the first row of the table is as specified; the second
row fires whenever the first does not and `end_flag` is present —
regardless of `status` — with resume cursor `end_flag`; `first_run` with a
null cursor is selected exactly when the first row does not fire and
`end_flag` is absent.  The full run's `run_reason` is the selected
strategy. -/
theorem c1_amended_selection (st : HarvestState) :
    (∀ f, st.status = "in_progress" → dict_to_flag st.middle_flag = some f →
      selectStrategy st = ("resume_unfinished", some f)) ∧
    (∀ g, ¬(st.status = "in_progress" ∧
        (dict_to_flag st.middle_flag).isSome = true) →
      dict_to_flag st.end_flag = some g →
      selectStrategy st = ("continue_archive", some g)) ∧
    (¬(st.status = "in_progress" ∧
        (dict_to_flag st.middle_flag).isSome = true) →
      dict_to_flag st.end_flag = none →
      selectStrategy st = ("first_run", none)) ∧
    (∀ cfg δ lf tS tF fetch fuel,
      (collect_links_with_flags cfg δ lf st tS tF fetch fuel).run_reason
        = (selectStrategy st).1) := by
  refine ⟨?_, ?_, ?_, fun _ _ _ _ _ _ _ => rfl⟩
  · intro f hst hmid
    unfold selectStrategy
    rw [if_pos (by rw [hst, hmid]; simp)]
    rw [hmid]
  · intro g hnot hend
    unfold selectStrategy
    rw [if_neg ?_, hend, if_pos (by simp)]
    intro hb
    have := (Bool.and_eq_true _ _).mp hb
    exact hnot ⟨beq_iff_eq.mp this.1, this.2⟩
  · intro hnot hend
    unfold selectStrategy
    rw [if_neg ?_, hend]
    · simp
    · intro hb
      have := (Bool.and_eq_true _ _).mp hb
      exact hnot ⟨beq_iff_eq.mp this.1, this.2⟩

/-- Witness for `c1_amended_selection` at a concrete resuming state. -/
theorem c1_amended_selection_witness :
    selectStrategy
      { freshState "t0" with
        status := "in_progress"
        middle_flag := some (FlagDict.mk 9 "d9") }
      = ("resume_unfinished", some (MsgFlag.mk 9 "d9")) :=
  (c1_amended_selection _).1 (MsgFlag.mk 9 "d9") rfl rfl

/-- The `middle_flag` stored by the first save of a trace (`none` when the
trace does not start with a save). -/
def firstSavedMiddle (evs : List RunEvent) : Option (Option FlagDict) :=
  match evs with
  | RunEvent.save st :: _ => some st.middle_flag
  | _ => none

/-- A state as a completed earlier run leaves it: `idle`, `middle_flag` at
the last scanned entry (1150) and `end_flag` at the last collected entry
(1200). -/
def c2State : HarvestState :=
  { freshState "t0" with
    middle_flag := some (FlagDict.mk 1150 "d1150")
    end_flag := some (FlagDict.mk 1200 "d1200") }

/-- C2 counterexample: resuming from `c2State`, the very first checkpoint of
the run — written by the run-start code at lines 150-154, before any batch
is scanned (the trace holds no scan events at all) — already overwrites
`middle_flag` from 1150 to 1200 (the resume cursor).  So `middle_flag` is
written before scanning, and it moves to a position *newer* than entries the
previous run had scanned. -/
theorem c2_counterexample :
    c2State.middle_flag = some (FlagDict.mk 1150 "d1150") ∧
    firstSavedMiddle (collect_links_with_flags
        (RunConfig.mk "chan" "TinyGS" 5 100) 2 (some (MsgFlag.mk 1249 "d1249"))
        c2State "tS" "tF" (fun _ _ => some []) 3).events
      = some (some (FlagDict.mk 1200 "d1200")) ∧
    scansIn (collect_links_with_flags
        (RunConfig.mk "chan" "TinyGS" 5 100) 2 (some (MsgFlag.mk 1249 "d1249"))
        c2State "tS" "tF" (fun _ _ => some []) 3).events = [] := by
  decide

/-- C2 as amended: besides the loop's post-batch checkpoints, `middle_flag`
is also written once at run start, where it is initialized to the resume
cursor before any scanning; throughout the run, every state handed to
`StateStore.save` carries a `middle_flag` at or older than every entry the
current run has scanned up to that save (the run-start save trivially so,
nothing being scanned yet), provided each fetched batch honours the
transport contract. -/
theorem c2_amended_middle_flag (cfg : RunConfig) (δ : ℚ)
    (lf : Option MsgFlag) (st0 : HarvestState) (tS tF : String)
    (fetch : Nat → Option MsgFlag → Option (List Message)) (fuel : Nat)
    (hf : GoodFetcher fetch) :
    middleOk (collect_links_with_flags cfg δ lf st0 tS tF fetch fuel).events
      = true := by
  have hinv := runLoop_core cfg δ fetch hf fuel 0 (initLoopSt cfg lf st0 tS)
    (CoreInv_init cfg lf st0 tS)
  show middleOk
    ((runLoop cfg δ fetch fuel 0 (initLoopSt cfg lf st0 tS)).1.events
      ++ [RunEvent.save (finalizeState
          (runLoop cfg δ fetch fuel 0 (initLoopSt cfg lf st0 tS)).1.st tF
          (runLoop cfg δ fetch fuel 0
            (initLoopSt cfg lf st0 tS)).1.collected.length)]) = true
  set sEnd := (runLoop cfg δ fetch fuel 0 (initLoopSt cfg lf st0 tS)).1
    with hsEnd
  unfold middleOk
  rw [middleOkAux_append]
  have h1 : middleOkAux sEnd.events [] = true := hinv.midOk
  rw [h1]
  simp only [Bool.true_and, List.nil_append]
  have hmf : dict_to_flag
      (finalizeState sEnd.st tF sEnd.collected.length).middle_flag
      = dict_to_flag sEnd.file.middle_flag := by
    show dict_to_flag sEnd.st.middle_flag = dict_to_flag sEnd.file.middle_flag
    rw [hinv.stFile]
  simp only [middleOkAux, hmf, Bool.and_true]
  cases hd : dict_to_flag sEnd.file.middle_flag with
  | none => rfl
  | some f =>
    rw [List.all_eq_true]
    intro m hm
    simpa using hinv.fileMidLeScans f hd m hm

/-- Witness for `c2_amended_middle_flag` on a concrete run whose every
fetch fails. -/
theorem c2_amended_middle_flag_witness :
    middleOk (collect_links_with_flags (RunConfig.mk "chan" "TinyGS" 3 2) 2
      none (freshState "t0") "tS" "tF" (fun _ _ => none) 1).events = true :=
  c2_amended_middle_flag (RunConfig.mk "chan" "TinyGS" 3 2) 2 none
    (freshState "t0") "tS" "tF" (fun _ _ => none) 1
    (fun _ _ _ h => nomatch h)

/-- The filter of the C3 scenario: exactly the ids 1249, 1240, 1200, 1100
and 1050 match. -/
def c3Filter (i : Nat) : Bool := [1249, 1240, 1200, 1100, 1050].contains i

/-- One archive entry of the C3 scenario: matching entries contain the
search term in their text; no entry carries buttons or an inline URL, so
collected URLs are channel permalinks. -/
def c3Msg (i : Nat) : Message :=
  { id := i, date := "d" ++ toString i,
    text := if c3Filter i then "TinyGS telemetry" else "chatter",
    buttons := [] }

/-- The 250-entry archive of the C3 scenario, ids 1249 down to 1000,
newest first. -/
def c3Archive : List Message := (List.range 250).map (fun i => c3Msg (1249 - i))

/-- The C3 run: first run (fresh state), `batch_size = 100`,
`max_records = 3`, fetching from the fixed archive. -/
def c3Run : RunResult :=
  collect_links_with_flags (RunConfig.mk "chan" "TinyGS" 3 100) 2
    (some (MsgFlag.mk 1249 "d1249")) (freshState "t0") "tS" "tF"
    (fun _ c => some (fetchBatch c3Archive 100 c)) 5

/-- C3: on the 250-entry archive with matches {1249, 1240, 1200, 1100,
1050}, `batch_size = 100` and `max_records = 3`, the first run fetches the
batch 1249..1150, collects exactly 1249, 1240, 1200 in newest-to-oldest
order, stops mid-batch at the third match (50 entries scanned, the last
being 1200), and persists `end_flag.id = 1200`, `middle_flag.id = 1200`
and status `idle`. -/
theorem c3_first_run_scenario :
    c3Run.collected.map (fun r => r.message_id) = [1249, 1240, 1200] ∧
    c3Run.run_reason = "first_run" ∧
    (fetchBatch c3Archive 100 none).map (fun m => m.id)
      = (List.range 100).map (fun i => 1249 - i) ∧
    (scansIn c3Run.events).length = 50 ∧
    (scansIn c3Run.events).getLast? = some (c3Msg 1200) ∧
    c3Run.file.end_flag = some (FlagDict.mk 1200 "d1200") ∧
    c3Run.file.middle_flag = some (FlagDict.mk 1200 "d1200") ∧
    c3Run.file.status = "idle" ∧
    c3Run.finished = true := by
  set_option maxRecDepth 100000 in decide

theorem batchStep_collected (cfg : RunConfig) (δ : ℚ) (msgs : List Message)
    (s : LoopSt) :
    (batchStep cfg δ msgs s).collected
      = (scanBatch cfg msgs s.collected s.st.end_flag none).collected := by
  cases hL : (scanBatch cfg msgs s.collected s.st.end_flag none).last with
  | none =>
    simp only [batchStep, hL]
    split <;> rfl
  | some lf =>
    simp only [batchStep, hL]
    split <;> rfl

theorem runLoop_cap (cfg : RunConfig) (δ : ℚ)
    (fetch : Nat → Option MsgFlag → Option (List Message)) :
    ∀ fuel k s, s.collected.length ≤ cfg.max_records →
      (runLoop cfg δ fetch fuel k s).1.collected.length ≤ cfg.max_records := by
  intro fuel
  induction fuel with
  | zero => intro k s hs; exact hs
  | succ fuel ih =>
    intro k s hs
    rw [runLoop]
    by_cases hguard : cfg.max_records ≤ s.collected.length
    · rw [if_pos hguard]; exact hs
    · rw [if_neg hguard]
      cases hfetch : fetch k s.cursor with
      | none => exact ih (k + 1) _ hs
      | some msgs =>
        cases msgs with
        | nil => exact hs
        | cons m ms =>
          refine ih (k + 1) _ ?_
          rw [batchStep_collected]
          exact (scanBatch_cap cfg (m :: ms) s.collected s.st.end_flag none
            (lt_of_not_le hguard)).1

/-- C4: (run level, unconditionally) a run never returns more than
`max_records` records; (batch level) when a batch scan starts below the cap,
it ends at or below the cap, and whenever it stops before exhausting the
batch (a nonempty unscanned tail remains) the collected count is exactly
`max_records` and the scan stopped the moment the cap was reached: before
its last scanned entry the count was still below `max_records`. -/
theorem c4_cap_respected :
    (∀ (cfg : RunConfig) (δ : ℚ) (lf : Option MsgFlag) (st0 : HarvestState)
        (tS tF : String)
        (fetch : Nat → Option MsgFlag → Option (List Message)) (fuel : Nat),
      (collect_links_with_flags cfg δ lf st0 tS tF
          fetch fuel).collected.length ≤ cfg.max_records) ∧
    (∀ (cfg : RunConfig) (msgs : List Message) (coll : List CollectedRecord)
        (ef : Option FlagDict) (l₀ : Option MsgFlag),
      coll.length < cfg.max_records →
      (scanBatch cfg msgs coll ef l₀).collected.length ≤ cfg.max_records ∧
      (∀ t, msgs = (scanBatch cfg msgs coll ef l₀).scanned ++ t → t ≠ [] →
        (scanBatch cfg msgs coll ef l₀).collected.length = cfg.max_records ∧
        ∃ pre mL, (scanBatch cfg msgs coll ef l₀).scanned = pre ++ [mL] ∧
          (scanBatch cfg pre coll ef l₀).collected.length
            < cfg.max_records)) := by
  constructor
  · intro cfg δ lf st0 tS tF fetch fuel
    exact runLoop_cap cfg δ fetch fuel 0 (initLoopSt cfg lf st0 tS)
      (by simp [initLoopSt])
  · exact scanBatch_cap

/-- Witness for `c4_cap_respected` on a concrete two-message batch with
`max_records = 1`: the scan stops after the first message. -/
theorem c4_cap_respected_witness :
    (scanBatch (RunConfig.mk "chan" "TinyGS" 1 100)
        [Message.mk 2 "d2" "TinyGS" [], Message.mk 1 "d1" "TinyGS" []]
        [] none none).collected.length = 1 ∧
    ∃ pre mL, (scanBatch (RunConfig.mk "chan" "TinyGS" 1 100)
        [Message.mk 2 "d2" "TinyGS" [], Message.mk 1 "d1" "TinyGS" []]
        [] none none).scanned = pre ++ [mL] ∧
      (scanBatch (RunConfig.mk "chan" "TinyGS" 1 100) pre [] none
          none).collected.length < 1 :=
  (c4_cap_respected.2 (RunConfig.mk "chan" "TinyGS" 1 100)
      [Message.mk 2 "d2" "TinyGS" [], Message.mk 1 "d1" "TinyGS" []]
      [] none none (by decide)).2 [Message.mk 1 "d1" "TinyGS" []]
    (by set_option maxRecDepth 10000 in decide) (by decide)

/-- C8: on a transport failure the loop takes exactly the recovery step
(`failStep`) and retries — the failure is never surfaced (the loop keeps
running with the collected records intact): `failStep` sleeps once for the
fixed reconnect delay, reloads the persisted state into memory, resets the
cursor to the freshly loaded `middle_flag` and keeps the in-memory cursor
when none is persisted; and under an always-failing fetch the loop retries
for as many attempts as it is given fuel for, sleeping the same `δ` each
time with no backoff growth, never terminating the run and never touching
the collected records or the persisted state. -/
theorem c8_transport_retry :
    (∀ (cfg : RunConfig) (δ : ℚ)
        (fetch : Nat → Option MsgFlag → Option (List Message))
        (fuel k : Nat) (s : LoopSt),
      s.collected.length < cfg.max_records → fetch k s.cursor = none →
      runLoop cfg δ fetch (fuel + 1) k s
        = runLoop cfg δ fetch fuel (k + 1) (failStep δ s)) ∧
    (∀ (δ : ℚ) (s : LoopSt),
      (failStep δ s).collected = s.collected ∧
      (failStep δ s).st = s.file ∧
      (failStep δ s).file = s.file ∧
      (failStep δ s).events = s.events ++ [RunEvent.sleep δ] ∧
      (∀ f, dict_to_flag s.file.middle_flag = some f →
        (failStep δ s).cursor = some f) ∧
      (dict_to_flag s.file.middle_flag = none →
        (failStep δ s).cursor = s.cursor)) ∧
    (∀ (cfg : RunConfig) (δ : ℚ) (fuel k : Nat) (s : LoopSt),
      s.collected.length < cfg.max_records →
      (runLoop cfg δ (fun _ _ => none) fuel k s).1.collected = s.collected ∧
      (runLoop cfg δ (fun _ _ => none) fuel k s).2 = false ∧
      (runLoop cfg δ (fun _ _ => none) fuel k s).1.events
        = s.events ++ List.replicate fuel (RunEvent.sleep δ) ∧
      (runLoop cfg δ (fun _ _ => none) fuel k s).1.file = s.file) := by
  refine ⟨?_, ?_, ?_⟩
  · intro cfg δ fetch fuel k s h hfetch
    rw [runLoop, if_neg (not_le.mpr h), hfetch]
  · intro δ s
    refine ⟨rfl, rfl, rfl, rfl, ?_, ?_⟩
    · intro f hf
      unfold failStep
      rw [hf]
    · intro hf
      unfold failStep
      rw [hf]
  · intro cfg δ fuel
    induction fuel with
    | zero =>
      intro k s h
      exact ⟨rfl, decide_eq_false (not_le.mpr h), by simp [runLoop], rfl⟩
    | succ fuel ih =>
      intro k s h
      rw [runLoop, if_neg (not_le.mpr h)]
      have hstep := ih (k + 1) (failStep δ s) (by exact h)
      refine ⟨hstep.1, hstep.2.1, ?_, hstep.2.2.2⟩
      rw [hstep.2.2.1]
      show (s.events ++ [RunEvent.sleep δ])
          ++ List.replicate fuel (RunEvent.sleep δ) = _
      rw [List.append_assoc]
      rfl

/-- Witness for `c8_transport_retry`: a concrete loop state under an
always-failing fetch retries through all its fuel, sleeping the fixed delay
each time, and does not fail. -/
theorem c8_transport_retry_witness :
    (runLoop (RunConfig.mk "chan" "TinyGS" 3 100) 2 (fun _ _ => none) 2 0
        (initLoopSt (RunConfig.mk "chan" "TinyGS" 3 100) none
          (freshState "t0") "tS")).1.collected
      = (initLoopSt (RunConfig.mk "chan" "TinyGS" 3 100) none
          (freshState "t0") "tS").collected ∧
    (runLoop (RunConfig.mk "chan" "TinyGS" 3 100) 2 (fun _ _ => none) 2 0
        (initLoopSt (RunConfig.mk "chan" "TinyGS" 3 100) none
          (freshState "t0") "tS")).2 = false ∧
    (runLoop (RunConfig.mk "chan" "TinyGS" 3 100) 2 (fun _ _ => none) 2 0
        (initLoopSt (RunConfig.mk "chan" "TinyGS" 3 100) none
          (freshState "t0") "tS")).1.events
      = (initLoopSt (RunConfig.mk "chan" "TinyGS" 3 100) none
          (freshState "t0") "tS").events
        ++ List.replicate 2 (RunEvent.sleep 2) ∧
    (runLoop (RunConfig.mk "chan" "TinyGS" 3 100) 2 (fun _ _ => none) 2 0
        (initLoopSt (RunConfig.mk "chan" "TinyGS" 3 100) none
          (freshState "t0") "tS")).1.file
      = (initLoopSt (RunConfig.mk "chan" "TinyGS" 3 100) none
          (freshState "t0") "tS").file :=
  c8_transport_retry.2.2 (RunConfig.mk "chan" "TinyGS" 3 100) 2 2 0
    (initLoopSt (RunConfig.mk "chan" "TinyGS" 3 100) none
      (freshState "t0") "tS") (by decide)

/-- C10: given a fetcher honouring the transport contract (strictly
newest-to-older batches, all strictly older than the supplied cursor), the
records returned by a run are newest-first — `message_id` strictly
decreases along the returned list. -/
theorem c10_output_order (cfg : RunConfig) (δ : ℚ) (lf : Option MsgFlag)
    (st0 : HarvestState) (tS tF : String)
    (fetch : Nat → Option MsgFlag → Option (List Message)) (fuel : Nat)
    (hf : GoodFetcher fetch) :
    List.Chain' (fun a b => b < a)
      ((collect_links_with_flags cfg δ lf st0 tS tF
          fetch fuel).collected.map (fun r => r.message_id)) := by
  have hinv := runLoop_core cfg δ fetch hf fuel 0 (initLoopSt cfg lf st0 tS)
    (CoreInv_init cfg lf st0 tS)
  exact List.Pairwise.chain' hinv.chainColl

/-- Witness for `c10_output_order` with an immediately exhausted archive. -/
theorem c10_output_order_witness :
    List.Chain' (fun a b => b < a)
      ((collect_links_with_flags (RunConfig.mk "chan" "TinyGS" 3 100) 2 none
          (freshState "t0") "tS" "tF" (fun _ _ => some []) 2).collected.map
        (fun r => r.message_id)) :=
  c10_output_order (RunConfig.mk "chan" "TinyGS" 3 100) 2 none
    (freshState "t0") "tS" "tF" (fun _ _ => some []) 2
    (fun _ _ msgs h => by
      cases h
      exact ⟨List.chain'_nil, fun c _ m hm => nomatch hm⟩)

/-- C5: within a run driven by a contract-honouring fetcher, starting from
a protocol-consistent state (on a crashed-run resume the persisted
`middle_flag` is not newer than the persisted `end_flag`): the initial
`end_flag` id followed by the collected ids is strictly decreasing — so
`end_flag`, which tracks exactly the last collected record (and stays put
when nothing is collected), strictly decreases on each newly collected
match and never increases across the run — and the `middle_flag` ids of the
checkpoints written after batches are non-increasing. -/
theorem c5_monotonic_cursors (cfg : RunConfig) (δ : ℚ) (lf : Option MsgFlag)
    (st0 : HarvestState) (tS tF : String)
    (fetch : Nat → Option MsgFlag → Option (List Message)) (fuel : Nat)
    (hf : GoodFetcher fetch) (hwf : WFResume st0) :
    List.Chain' (fun a b => b < a)
      (endIds st0.end_flag
        ++ (collect_links_with_flags cfg δ lf st0 tS tF
            fetch fuel).collected.map (fun r => r.message_id)) ∧
    ((collect_links_with_flags cfg δ lf st0 tS tF fetch fuel).collected = []
      → (collect_links_with_flags cfg δ lf st0 tS tF
          fetch fuel).file.end_flag = st0.end_flag) ∧
    (∀ rec, (collect_links_with_flags cfg δ lf st0 tS tF
          fetch fuel).collected.getLast? = some rec →
      (collect_links_with_flags cfg δ lf st0 tS tF fetch fuel).file.end_flag
        = some (FlagDict.mk rec.message_id rec.date)) ∧
    List.Chain' (fun a b => middleStepOk a b = true)
      ((savesOf (collect_links_with_flags cfg δ lf st0 tS tF
          fetch fuel).events).drop 1) := by
  have hinv := runLoop_core cfg δ fetch hf fuel 0 (initLoopSt cfg lf st0 tS)
    (CoreInv_init cfg lf st0 tS)
  have hend := runLoop_end cfg δ fetch hf st0.end_flag fuel 0
    (initLoopSt cfg lf st0 tS) (CoreInv_init cfg lf st0 tS)
    (EndInv_init cfg lf st0 tS hwf)
  refine ⟨?_, ?_, ?_, ?_⟩
  · unfold endIds
    cases hd : dict_to_flag st0.end_flag with
    | none =>
      simp only [List.nil_append]
      exact List.Pairwise.chain' hinv.chainColl
    | some g =>
      refine List.Pairwise.chain' ?_
      show List.Pairwise (fun a b => b < a) (g.id :: _)
      rw [List.pairwise_cons]
      refine ⟨?_, hinv.chainColl⟩
      intro x hx
      obtain ⟨rec, hrec, hx'⟩ := List.mem_map.mp hx
      subst hx'
      exact hend.endLt g hd rec hrec
  · intro hnil
    show (runLoop cfg δ fetch fuel 0 (initLoopSt cfg lf st0 tS)).1.st.end_flag
      = st0.end_flag
    exact hend.endTrackNil hnil
  · intro rec hrec
    show (runLoop cfg δ fetch fuel 0 (initLoopSt cfg lf st0 tS)).1.st.end_flag
      = some (FlagDict.mk rec.message_id rec.date)
    exact hend.endTrackLast rec hrec
  · have hstepeq : ∀ a b : HarvestState, b.middle_flag = a.middle_flag →
        middleStepOk a b = true := by
      intro a b hab
      unfold middleStepOk
      rw [hab]
      cases dict_to_flag a.middle_flag <;> simp
    show List.Chain' (fun a b => middleStepOk a b = true)
      ((savesOf ((runLoop cfg δ fetch fuel 0 (initLoopSt cfg lf st0 tS)).1.events
        ++ [RunEvent.save (finalizeState
            (runLoop cfg δ fetch fuel 0 (initLoopSt cfg lf st0 tS)).1.st tF
            (runLoop cfg δ fetch fuel 0
              (initLoopSt cfg lf st0 tS)).1.collected.length)])).drop 1)
    set sEnd := (runLoop cfg δ fetch fuel 0 (initLoopSt cfg lf st0 tS)).1
      with hsEnd
    rw [savesOf_append]
    have hsv : savesOf [RunEvent.save
        (finalizeState sEnd.st tF sEnd.collected.length)]
        = [finalizeState sEnd.st tF sEnd.collected.length] := rfl
    rw [hsv, List.drop_append_of_le_length (List.length_pos.mpr hinv.savesNE)]
    rw [List.chain'_append]
    refine ⟨hinv.loopSavesChain, List.chain'_singleton _, ?_⟩
    intro x hx y hy
    simp only [List.head?_cons, Option.mem_def, Option.some.injEq] at hy
    subst hy
    obtain ⟨heq, _, _, _, _, _⟩ := hinv.lastLoopSave x (Option.mem_def.mp hx)
    refine hstepeq x _ ?_
    show sEnd.st.middle_flag = x.middle_flag
    rw [hinv.stFile, heq]

/-- Witness for `c5_monotonic_cursors` on a fresh first run over an
immediately exhausted archive. -/
theorem c5_monotonic_cursors_witness :
    List.Chain' (fun a b => b < a)
      (endIds (freshState "t0").end_flag
        ++ (collect_links_with_flags (RunConfig.mk "chan" "TinyGS" 3 100) 2
            none (freshState "t0") "tS" "tF"
            (fun _ _ => some []) 2).collected.map (fun r => r.message_id)) ∧
    ((collect_links_with_flags (RunConfig.mk "chan" "TinyGS" 3 100) 2 none
        (freshState "t0") "tS" "tF" (fun _ _ => some []) 2).collected = []
      → (collect_links_with_flags (RunConfig.mk "chan" "TinyGS" 3 100) 2 none
          (freshState "t0") "tS" "tF"
          (fun _ _ => some []) 2).file.end_flag = (freshState "t0").end_flag) ∧
    (∀ rec, (collect_links_with_flags (RunConfig.mk "chan" "TinyGS" 3 100) 2
          none (freshState "t0") "tS" "tF"
          (fun _ _ => some []) 2).collected.getLast? = some rec →
      (collect_links_with_flags (RunConfig.mk "chan" "TinyGS" 3 100) 2 none
          (freshState "t0") "tS" "tF"
          (fun _ _ => some []) 2).file.end_flag
        = some (FlagDict.mk rec.message_id rec.date)) ∧
    List.Chain' (fun a b => middleStepOk a b = true)
      ((savesOf (collect_links_with_flags (RunConfig.mk "chan" "TinyGS" 3 100)
          2 none (freshState "t0") "tS" "tF"
          (fun _ _ => some []) 2).events).drop 1) :=
  c5_monotonic_cursors (RunConfig.mk "chan" "TinyGS" 3 100) 2 none
    (freshState "t0") "tS" "tF" (fun _ _ => some []) 2
    (fun _ _ msgs h => by
      cases h
      exact ⟨List.chain'_nil, fun c _ m hm => nomatch hm⟩)
    (fun _ _ hst _ _ => absurd hst (by decide))

/-- The entry's first actionable element: the first button of the first
row, when the rows are non-empty and the first row is non-empty (the only
shape the source's `msg.buttons[0][0]` reaches without an exception). -/
def firstButton (msg : Message) : Option InlineButton :=
  match msg.buttons with
  | (b :: _) :: _ => some b
  | _ => none

/-- Modelled from the spec: the Record Extractor's URL precedence of spec
section 4.3 — (1) the URL of the first actionable element when it has one,
else (2) the first URL-shaped substring of the text, else (3) the permalink
from the normalized source identity, absent when nothing normalizes. -/
def extractUrlSpec (msg : Message) (channel_name : String) : Option String :=
  match firstButton msg with
  | some b =>
    match b.url with
    | some u => some u
    | none =>
      match urlSearch (pyStrip msg.text) with
      | some u => some u
      | none =>
        (normalize_channel_username channel_name).map
          (fun username => "https://t.me/" ++ username ++ "/" ++ toString msg.id)
  | none =>
    match urlSearch (pyStrip msg.text) with
    | some u => some u
    | none =>
      (normalize_channel_username channel_name).map
        (fun username => "https://t.me/" ++ username ++ "/" ++ toString msg.id)

/-- A message whose first inline button carries no URL (telethon's
`Button.url` is `None` for, e.g., callback buttons) while its text holds a
URL and matches the filter. -/
def c7Msg : Message :=
  { id := 77, date := "d77", text := "TinyGS https://data.example/x",
    buttons := [[InlineButton.mk none]] }

/-- C7 counterexample: the claim's strict precedence demands that an
entry whose first actionable element has no URL fall back to the first URL
in the text, yielding a record with that URL; the source's
`return msg.buttons[0][0].url` instead returns `None` outright, so the
qualifying entry yields no record at all. -/
theorem c7_counterexample :
    strContains c7Msg.text "TinyGS" = true ∧
    urlSearch (pyStrip c7Msg.text) = some "https://data.example/x" ∧
    extractUrlSpec c7Msg "chan" = some "https://data.example/x" ∧
    extract_url c7Msg "chan" = none := by
  exact ⟨by decide, by decide, by decide, rfl⟩

/-- C7 as amended: an entry is collected only if its text contains the
filter term as a case-sensitive substring and `extract_url` yields its URL;
the URL precedence holds with one exception forced by the source — when the
entry has a first actionable element, its `url` field (present or not) is
final, with no fallback to (2) or (3); without such an element the first
URL-shaped substring of the text is used, then the permalink from the
normalized source identity, then nothing; and a qualifying entry without a
derivable URL is skipped without error while still advancing the scan
position (`last_in_batch`). -/
theorem c7_amended_extractor :
    (∀ (cfg : RunConfig) (msgs : List Message) (coll : List CollectedRecord)
        (ef : Option FlagDict) (l₀ : Option MsgFlag) (rec : CollectedRecord),
      rec ∈ (scanBatch cfg msgs coll ef l₀).collected →
      rec ∈ coll ∨ ∃ m ∈ (scanBatch cfg msgs coll ef l₀).scanned,
        strContains m.text cfg.search_term = true ∧
        extract_url m cfg.channel_name = some rec.url ∧
        rec.message_id = m.id ∧ rec.date = m.date) ∧
    (∀ (msg : Message) (cn : String) (b : InlineButton),
      firstButton msg = some b → extract_url msg cn = b.url) ∧
    (∀ (msg : Message) (cn : String) (u : String),
      firstButton msg = none → urlSearch (pyStrip msg.text) = some u →
      extract_url msg cn = some u) ∧
    (∀ (msg : Message) (cn : String),
      firstButton msg = none → urlSearch (pyStrip msg.text) = none →
      extract_url msg cn = (normalize_channel_username cn).map
        (fun username =>
          "https://t.me/" ++ username ++ "/" ++ toString msg.id)) ∧
    (∀ (cfg : RunConfig) (m : Message) (rest : List Message)
        (coll : List CollectedRecord) (ef : Option FlagDict)
        (l₀ : Option MsgFlag),
      strContains m.text cfg.search_term = true →
      extract_url m cfg.channel_name = none →
      (scanBatch cfg (m :: rest) coll ef l₀).collected
          = (scanBatch cfg rest coll ef
              (some (MsgFlag.fromMessage m))).collected ∧
      (scanBatch cfg (m :: rest) coll ef l₀).end_flag
          = (scanBatch cfg rest coll ef
              (some (MsgFlag.fromMessage m))).end_flag ∧
      (scanBatch cfg (m :: rest) coll ef l₀).last
          = (scanBatch cfg rest coll ef (some (MsgFlag.fromMessage m))).last ∧
      (scanBatch cfg (m :: rest) coll ef l₀).scanned
          = m :: (scanBatch cfg rest coll ef
              (some (MsgFlag.fromMessage m))).scanned) := by
  refine ⟨?_, ?_, ?_, ?_, ?_⟩
  · intro cfg msgs coll ef l₀ rec hrec
    obtain ⟨Δ, hΔ1, hΔ2, _, _⟩ := scanBatch_delta cfg msgs coll ef l₀
    rw [hΔ1] at hrec
    rcases List.mem_append.mp hrec with h | h
    · exact Or.inl h
    · obtain ⟨m, hm, hid, hdate, hterm, hurl⟩ := hΔ2 rec h
      exact Or.inr ⟨m, hm, hterm, hurl, hid, hdate⟩
  · intro msg cn b hb
    unfold firstButton at hb
    unfold extract_url
    cases hbt : msg.buttons with
    | nil => rw [hbt] at hb; exact absurd hb (by simp)
    | cons row rows =>
      cases row with
      | nil => rw [hbt] at hb; exact absurd hb (by simp)
      | cons b' brest =>
        rw [hbt] at hb
        simp only [Option.some.injEq] at hb
        subst hb
        rfl
  · intro msg cn u hb hu
    unfold firstButton at hb
    unfold extract_url
    cases hbt : msg.buttons with
    | nil => rw [hu]
    | cons row rows =>
      cases row with
      | nil => rw [hu]
      | cons b' brest => rw [hbt] at hb; exact absurd hb (by simp)
  · intro msg cn hb hu
    unfold firstButton at hb
    unfold extract_url
    cases hbt : msg.buttons with
    | nil =>
      rw [hu]
      cases normalize_channel_username cn <;> rfl
    | cons row rows =>
      cases row with
      | nil =>
        rw [hu]
        cases normalize_channel_username cn <;> rfl
      | cons b' brest => rw [hbt] at hb; exact absurd hb (by simp)
  · intro cfg m rest coll ef l₀ h1 h2
    rw [scanBatch_cons_nourl cfg m rest coll ef l₀ h1 h2]
    exact ⟨rfl, rfl, rfl, rfl⟩

/-- Witness for `c7_amended_extractor`: the button-final clause at the
concrete `c7Msg`. -/
theorem c7_amended_extractor_witness :
    extract_url c7Msg "chan" = (InlineButton.mk none).url :=
  c7_amended_extractor.2.1 c7Msg "chan" (InlineButton.mk none) rfl
